import Mathlib

/-!
Verification of the llm-extract candidate-detection and repair engine.

The Python sources under `src/llm_extract` and `src/ai_extract` are embedded
shallowly: texts are `List Char`, floating-point confidence scores are `ℚ`
(the program only ever combines small decimal constants), the external strict
JSON decoder (`orjson.loads`) is an abstract parameter `loads`, and a
reference JSON parser `parseJson` (standard JSON grammar) is provided to
instantiate it on concrete inputs.  Diagnostic message strings are carried
but their interpolated details (counts, underlying decoder messages) are
elided, since no behaviour depends on them.
-/

/- `Rat.add`, `Rat.mul`, `Rat.sub` and `Rat.inv` are `@[irreducible]` in
Batteries; re-enabling their reduction lets `decide`/`rfl` evaluate the
confidence arithmetic on concrete inputs. -/
attribute [local semireducible] Rat.add Rat.mul Rat.sub Rat.inv

namespace LlmExtract

/-- ASCII whitespace, as recognised by Python's `str.strip` and the regex
class `\s` on ASCII input (space, tab, newline, carriage return, vertical
tab, form feed). -/
def isPyWs (c : Char) : Bool :=
  c = ' ' || c = '\t' || c = '\n' || c = '\r' || c = '\x0b' || c = '\x0c'

/-- Python `str.lstrip()`. -/
def pyLstrip (t : List Char) : List Char := t.dropWhile isPyWs

/-- Python `str.rstrip()`. -/
def pyRstrip (t : List Char) : List Char := (t.reverse.dropWhile isPyWs).reverse

/-- Python `str.strip()`. -/
def pyStrip (t : List Char) : List Char := pyRstrip (pyLstrip t)

/-- Repair-kind labels recorded by `ai_extract.repair` (the Python code uses
string literals; a closed enumeration is the faithful value model). -/
inductive RepairLabel where
  | trailing_comma_removal
  | quote_normalization
  | unquoted_key_fix
  | bom_removal
  | invisible_char_removal
  | string_completion
  | brace_completion
deriving DecidableEq, Repr

/-- Result of a repair attempt (`repair.RepairResult`). -/
structure RepairResult where
  repaired : List Char
  repairs_applied : List RepairLabel
  is_truncated : Bool
deriving DecidableEq, Repr

/-- Helper for the regex `,(\s*[}\]])` of `_remove_trailing_commas`: split a
text into leading whitespace, a closing brace/bracket, and the remainder, if
it has that shape. -/
def wsCloserSplit : List Char → Option (List Char × Char × List Char)
  | [] => none
  | c :: rest =>
    if c = '}' || c = ']' then some ([], c, rest)
    else if isPyWs c then
      (wsCloserSplit rest).map (fun p => (c :: p.1, p.2.1, p.2.2))
    else none

theorem wsCloserSplit_length {l : List Char} {w : List Char} {cl : Char}
    {r : List Char} (h : wsCloserSplit l = some (w, cl, r)) :
    r.length < l.length := by
  induction l generalizing w cl r with
  | nil => simp [wsCloserSplit] at h
  | cons c rest ih =>
    simp only [wsCloserSplit] at h
    split at h
    · simp only [Option.some.injEq, Prod.mk.injEq] at h
      obtain ⟨-, -, hr⟩ := h
      simp [← hr]
    · split at h
      · obtain ⟨⟨w', cl', r'⟩, hr, hf⟩ := Option.map_eq_some'.mp h
        simp only [Prod.mk.injEq] at hf
        obtain ⟨-, -, hr3⟩ := hf
        subst hr3
        have := ih hr
        simp only [List.length_cons]
        omega
      · exact absurd h (by simp)

/-- `_remove_trailing_commas` body: Python's
`re.sub(r",(\s*[}\]])", r"\1", text)` — delete each comma directly followed
by optional whitespace and a `}` or `]`, scanning left to right,
non-overlapping (scanning resumes after the consumed closer).  The fuel is
an upper bound on the scan steps; every step consumes at least one
character (`wsCloserSplit_length`), so the list length suffices. -/
def remTrailingGo : Nat → List Char → List Char
  | 0, l => l
  | _, [] => []
  | fuel + 1, c :: rest =>
    if c = ',' then
      match wsCloserSplit rest with
      | some (w, cl, r) => w ++ cl :: remTrailingGo fuel r
      | none => ',' :: remTrailingGo fuel rest
    else
      c :: remTrailingGo fuel rest

/-- The regex rewrite of `_remove_trailing_commas`. -/
def remTrailingCommasText (l : List Char) : List Char := remTrailingGo l.length l

/-- `_remove_trailing_commas`: rewritten text plus its label when changed. -/
def remTrailingCommas (t : List Char) : List Char × List RepairLabel :=
  let t' := remTrailingCommasText t
  (t', if t' ≠ t then [.trailing_comma_removal] else [])

/-- Last non-whitespace character of the already-consumed prefix (held in
reverse); models `text[:pos].rstrip()[-1]` of `_is_json_string_quote`. -/
def lastNonWs (rev : List Char) : Option Char := (rev.dropWhile isPyWs).head?

/-- First non-whitespace character of the remaining suffix; models
`text[pos+1:].lstrip()[0]` of `_is_json_string_quote`. -/
def firstNonWs (l : List Char) : Option Char := (l.dropWhile isPyWs).head?

/-- `_is_json_string_quote(text, pos)`: the single quote is plausibly a JSON
string delimiter.  `rev` is the reversed original text before the quote,
`after` the original text after it. -/
def isJsonStringQuote (rev after : List Char) : Bool :=
  (match lastNonWs rev with
   | some c => c = '{' || c = '[' || c = ':' || c = ','
   | none => false) ||
  (match firstNonWs after with
   | some c => c = '}' || c = ']' || c = ':' || c = ','
   | none => false)

/-- Loop of `_normalize_quotes`: walk the text tracking double-quoted-string
state; rewrite plausible delimiter single quotes to double quotes.  `rev`
accumulates the original characters already consumed (reversed), since
`_is_json_string_quote` inspects the original text.  Returns the rewritten
text and the `modified` flag. -/
def normalizeQuotesGo : List Char → List Char → Bool → List Char × Bool
  | [], _, _ => ([], false)
  | '\\' :: d :: rest, rev, inDq =>
    let p := normalizeQuotesGo rest (d :: '\\' :: rev) inDq
    ('\\' :: d :: p.1, p.2)
  | c :: rest, rev, inDq =>
    if c = '"' then
      let p := normalizeQuotesGo rest ('"' :: rev) (!inDq)
      ('"' :: p.1, p.2)
    else if c = '\'' && !inDq && isJsonStringQuote rev rest then
      let p := normalizeQuotesGo rest ('\'' :: rev) inDq
      ('"' :: p.1, true)
    else
      let p := normalizeQuotesGo rest (c :: rev) inDq
      (c :: p.1, p.2)

/-- `_normalize_quotes`. -/
def normalizeQuotes (t : List Char) : List Char × List RepairLabel :=
  let p := normalizeQuotesGo t [] false
  (p.1, if p.2 then [.quote_normalization] else [])

/-- First character of the regex class `[a-zA-Z_]`. -/
def isIdentStart (c : Char) : Bool := c.isAlpha || c = '_'

/-- Continuation characters of the regex class `[a-zA-Z0-9_]`. -/
def isIdentCont (c : Char) : Bool := c.isAlphanum || c = '_'

/-- Maximal identifier (`[a-zA-Z_][a-zA-Z0-9_]*`) prefix split. -/
def identSplit : List Char → Option (List Char × List Char)
  | [] => none
  | c :: rest =>
    if isIdentStart c then
      some (c :: rest.takeWhile isIdentCont, rest.dropWhile isIdentCont)
    else none

theorem dropWhileLengthLe {α : Type} (p : α → Bool) (l : List α) :
    (l.dropWhile p).length ≤ l.length := by
  induction l with
  | nil => simp
  | cons c rest ih =>
    simp only [List.dropWhile]
    split
    · simp only [List.length_cons]
      omega
    · simp

theorem identSplit_length {l : List Char} {i r : List Char}
    (h : identSplit l = some (i, r)) : r.length < l.length := by
  cases l with
  | nil => simp [identSplit] at h
  | cons c rest =>
    simp only [identSplit] at h
    split at h
    · simp only [Option.some.injEq, Prod.mk.injEq] at h
      obtain ⟨-, hr⟩ := h
      have := dropWhileLengthLe isIdentCont rest
      simp only [← hr, List.length_cons]
      omega
    · exact absurd h (by simp)

/-- Helper for the `(\s*:)` tail of the key regex: strip a leading colon. -/
def colonSplit : List Char → Option (List Char)
  | c :: r => if c = ':' then some r else none
  | [] => none

/-- Attempt to match `\s*` identifier `\s*:` right after a `{` or `,`, as in
the `_fix_unquoted_keys` regex `([{,]\s*)([a-zA-Z_][a-zA-Z0-9_]*)(\s*:)`
(identifier characters, whitespace and `:` are disjoint, so the greedy match
is deterministic).  Returns `(ws1, ident, ws2, remainder-after-colon)`. -/
def tryKeyMatch (rest : List Char) : Option (List Char × List Char × List Char × List Char) :=
  match identSplit (rest.dropWhile isPyWs) with
  | some (ident, r2) =>
    match colonSplit (r2.dropWhile isPyWs) with
    | some r4 => some (rest.takeWhile isPyWs, ident, r2.takeWhile isPyWs, r4)
    | none => none
  | none => none

theorem colonSplit_length {l : List Char} {r : List Char}
    (h : colonSplit l = some r) : r.length < l.length := by
  cases l with
  | nil => simp [colonSplit] at h
  | cons c rest =>
    simp only [colonSplit] at h
    split at h
    · simp only [Option.some.injEq] at h
      simp [← h]
    · exact absurd h (by simp)

theorem tryKeyMatch_length {l : List Char} {w1 id w2 r : List Char}
    (h : tryKeyMatch l = some (w1, id, w2, r)) : r.length < l.length := by
  unfold tryKeyMatch at h
  rcases h1 : identSplit (l.dropWhile isPyWs) with - | ⟨ident, r2⟩ <;> rw [h1] at h
  · exact absurd h (by simp)
  · have h' : (match colonSplit (r2.dropWhile isPyWs) with
        | some r4 => some (l.takeWhile isPyWs, ident, r2.takeWhile isPyWs, r4)
        | none => (none : Option (List Char × List Char × List Char × List Char))) =
        some (w1, id, w2, r) := h
    rcases h2 : colonSplit (r2.dropWhile isPyWs) with - | r4 <;> rw [h2] at h'
    · exact absurd h' (by simp)
    · simp only [Option.some.injEq, Prod.mk.injEq] at h'
      obtain ⟨-, -, -, hr⟩ := h'
      subst hr
      have hr4 : r4.length < (r2.dropWhile isPyWs).length := colonSplit_length h2
      have hwr2 : (r2.dropWhile isPyWs).length ≤ r2.length := dropWhileLengthLe isPyWs r2
      have hr2 : r2.length < (l.dropWhile isPyWs).length := identSplit_length h1
      have hl : (l.dropWhile isPyWs).length ≤ l.length := dropWhileLengthLe isPyWs l
      omega

/-- `_fix_unquoted_keys` body: `re.sub` of the pattern above, quoting each
matched identifier; scanning resumes after the matched colon. -/
def fixKeysGo : Nat → List Char → List Char
  | 0, l => l
  | _, [] => []
  | fuel + 1, c :: rest =>
    if c = '{' || c = ',' then
      match tryKeyMatch rest with
      | some (ws1, id, ws2, r4) =>
        c :: (ws1 ++ '"' :: (id ++ '"' :: (ws2 ++ ':' :: fixKeysGo fuel r4)))
      | none => c :: fixKeysGo fuel rest
    else
      c :: fixKeysGo fuel rest

/-- The regex rewrite of `_fix_unquoted_keys` (fueled like
`remTrailingGo`, justified by `tryKeyMatch_length`). -/
def fixUnquotedKeysText (l : List Char) : List Char := fixKeysGo l.length l

/-- `_fix_unquoted_keys`. -/
def fixUnquotedKeys (t : List Char) : List Char × List RepairLabel :=
  let t' := fixUnquotedKeysText t
  (t', if t' ≠ t then [.unquoted_key_fix] else [])

/-- Zero-width characters removed by `_cleanup_whitespace` (the BOM appears
both as leading-BOM strip and in this list). -/
def isZeroWidth (c : Char) : Bool :=
  c = '​' || c = '‌' || c = '‍' || c = '﻿'

/-- `_cleanup_whitespace`: strip a leading BOM, then delete all zero-width
characters; record `bom_removal` if a BOM was stripped, else
`invisible_char_removal` if anything else was deleted. -/
def cleanupWhitespace (t : List Char) : List Char × List RepairLabel :=
  let bom : Bool := match t with
    | '﻿' :: _ => true
    | _ => false
  let t1 := if bom then t.tail else t
  let t2 := t1.filter (fun c => !isZeroWidth c)
  (t2, (if bom then [.bom_removal] else []) ++
       (if t2 ≠ t1 && !bom then [.invisible_char_removal] else []))

/-- One iteration of the `repair_json` loop: the four rewrites in source
order, with their labels concatenated in application order. -/
def passesOnce (t : List Char) : List Char × List RepairLabel :=
  let p1 := remTrailingCommas t
  let p2 := normalizeQuotes p1.1
  let p3 := fixUnquotedKeys p2.1
  let p4 := cleanupWhitespace p3.1
  (p4.1, p1.2 ++ p2.2 ++ p3.2 ++ p4.2)

/-- The bounded fixed-point loop of `repair_json` (`for _ in range(n)` with
early break once an iteration makes no change). -/
def repairLoop : Nat → List Char → List Char × List RepairLabel
  | 0, t => (t, [])
  | n + 1, t =>
    let p := passesOnce t
    if p.1 = t then p
    else
      let q := repairLoop n p.1
      (q.1, p.2 ++ q.2)

/-- Per-character state of `is_truncated_json`: brace and bracket counters,
in-string flag, escape-pending flag. -/
structure ScanCounts where
  braces : Int
  brackets : Int
  inStr : Bool
  esc : Bool
deriving DecidableEq, Repr

/-- One character step of the `is_truncated_json` scan. -/
def scanStep (s : ScanCounts) (c : Char) : ScanCounts :=
  if s.esc then { s with esc := false }
  else if c = '\\' then { s with esc := true }
  else if c = '"' then { s with inStr := !s.inStr }
  else if s.inStr then s
  else if c = '{' then { s with braces := s.braces + 1 }
  else if c = '}' then { s with braces := s.braces - 1 }
  else if c = '[' then { s with brackets := s.brackets + 1 }
  else if c = ']' then { s with brackets := s.brackets - 1 }
  else s

/-- `is_truncated_json`: strip the text; empty means not truncated;
otherwise truncated iff the scan ends inside a string, with a positive brace
or bracket counter, or mid-escape. -/
def is_truncated_json (t : List Char) : Bool :=
  let stripped := pyStrip t
  if stripped = [] then false
  else
    let s := stripped.foldl scanStep ⟨0, 0, false, false⟩
    if s.inStr then true
    else if s.braces > 0 || s.brackets > 0 then true
    else s.esc

/-- Per-character state of `_complete_truncated`: stack of expected closers
(head = most recently opened), in-string flag, escape flag. -/
structure CompState where
  stack : List Char
  inStr : Bool
  esc : Bool
deriving DecidableEq, Repr

/-- One character step of the `_complete_truncated` replay: closers pop only
a matching stack top; mismatched closers are ignored. -/
def compStep (s : CompState) (c : Char) : CompState :=
  if s.esc then { s with esc := false }
  else if c = '\\' then { s with esc := true }
  else if c = '"' then { s with inStr := !s.inStr }
  else if s.inStr then s
  else if c = '{' then { s with stack := '}' :: s.stack }
  else if c = '[' then { s with stack := ']' :: s.stack }
  else if c = '}' || c = ']' then
    match s.stack with
    | top :: r => if top = c then { s with stack := r } else s
    | [] => s
  else s

/-- `_complete_truncated`: right-strip, replay, close an open string with one
quote, then append the pending closers last-opened-first. -/
def completeTruncated (t : List Char) : List Char × List RepairLabel :=
  let r := pyRstrip t
  let st := r.foldl compStep ⟨[], false, false⟩
  let r1 := if st.inStr then r ++ ['"'] else r
  let l1 : List RepairLabel := if st.inStr then [.string_completion] else []
  (r1 ++ st.stack, l1 ++ st.stack.map (fun _ => .brace_completion))

/-- `repair_json` with the default `max_iterations = 5`. -/
def repair_json (t : List Char) : RepairResult :=
  let p := repairLoop 5 t
  if is_truncated_json p.1 then
    let q := completeTruncated p.1
    ⟨q.1, p.2 ++ q.2, true⟩
  else ⟨p.1, p.2, false⟩

/-- `types.ExtractionMethod`. -/
inductive ExtractionMethod where
  | direct_parse
  | markdown_fence
  | brace_match
  | heuristic
deriving DecidableEq, Repr

/-- `types.ErrorType`. -/
inductive ErrorType where
  | no_json_found
  | invalid_json
  | truncated_json
  | ambiguous_multiple
  | repair_failed
deriving DecidableEq, Repr

/-- `types.ExtractError` (an exception value: message, classified type,
optional position).  Interpolated details of messages are elided. -/
structure ExtractError where
  message : List Char
  error_type : ErrorType
  position : Option Nat := none
deriving DecidableEq, Repr

/-- `types.Candidate`. -/
structure Candidate where
  raw : List Char
  start_pos : Nat
  end_pos : Nat
  method : ExtractionMethod
  confidence : ℚ
deriving DecidableEq, Repr

/-- The `__post_init__` validation of `Candidate`: construction raises
(`none`) when confidence is outside `[0, 1]`. -/
def mkCandidate (raw : List Char) (start_pos end_pos : Nat)
    (method : ExtractionMethod) (confidence : ℚ) : Option Candidate :=
  if 0 ≤ confidence ∧ confidence ≤ 1 then
    some ⟨raw, start_pos, end_pos, method, confidence⟩
  else none

/-- Parsed JSON values, the result type of the abstracted strict decoder.
Numbers keep their source lexeme (numeric value identification is a decoder
detail no claim depends on). -/
inductive Json where
  | null
  | bool (b : Bool)
  | num (lexeme : List Char)
  | str (s : List Char)
  | arr (elems : List Json)
  | obj (members : List (List Char × Json))

/-- Python data returned by extraction: a single parsed value, or a list of
them under the `all` strategy. -/
inductive PyData where
  | single (v : Json)
  | many (vs : List Json)

/-- `types.ExtractResult`. -/
structure ExtractResult where
  success : Bool
  data : Option PyData := none
  raw_json : Option (List Char) := none
  confidence : ℚ := 0
  method : Option ExtractionMethod := none
  repairs_applied : List RepairLabel := []
  candidates_found : Nat := 0
  error : Option ExtractError := none

/-- The `__post_init__` validation of `ExtractResult`: construction raises
(`none`) when confidence is outside `[0, 1]`. -/
def mkExtractResult (success : Bool) (data : Option PyData)
    (raw_json : Option (List Char)) (confidence : ℚ)
    (method : Option ExtractionMethod) (repairs_applied : List RepairLabel)
    (candidates_found : Nat) (error : Option ExtractError) :
    Option ExtractResult :=
  if 0 ≤ confidence ∧ confidence ≤ 1 then
    some ⟨success, data, raw_json, confidence, method, repairs_applied,
      candidates_found, error⟩
  else none

/-- Inner loop of `_match_braces`: `stack` holds the still-open openers
(head = innermost), `inStr` the in-string flag, `i` the current index.  A
backslash consumes the following character; a closing bracket pops only a
matching stack top and a mismatch aborts; when the stack empties the closer
index is returned. -/
def mbGo : List Char → List Char → Bool → Nat → Option Nat
  | [], _, _, _ => none
  | c :: rest, stack, inStr, i =>
    if c = '\\' then
      match rest with
      | [] => none
      | _ :: rest' => mbGo rest' stack inStr (i + 2)
    else if c = '"' then mbGo rest stack (!inStr) (i + 1)
    else if inStr then mbGo rest stack inStr (i + 1)
    else if c = '{' || c = '[' then mbGo rest (c :: stack) inStr (i + 1)
    else if c = '}' then
      match stack with
      | '{' :: s => if s.isEmpty then some i else mbGo rest s inStr (i + 1)
      | _ => none
    else if c = ']' then
      match stack with
      | '[' :: s => if s.isEmpty then some i else mbGo rest s inStr (i + 1)
      | _ => none
    else mbGo rest stack inStr (i + 1)

/-- `_match_braces(text, start)`: `some (start, endInclusive)` when the
opener at `start` is balanced, `none` otherwise. -/
def matchBraces (text : List Char) (start : Nat) : Option (Nat × Nat) :=
  match text.drop start with
  | [] => none
  | c :: rest =>
    if c = '{' || c = '[' then
      match mbGo rest [c] false (start + 1) with
      | some e => some (start, e)
      | none => none
    else none

/-- `_calculate_brace_match_confidence`. -/
def calcBraceConf (raw : List Char) : ℚ :=
  let b0 : ℚ := 8 / 10
  let b1 := if raw.contains '"' then b0 + 5 / 100 else b0
  let b2 := if raw.contains ':' then b1 + 5 / 100 else b1
  let b3 := if raw.length < 10 then b2 - 1 / 10 else b2
  min (9 / 10) (max (5 / 10) b3)

/-- Scan loop of `extract_from_brace_matching`: at each `{`/`[` attempt a
balanced match; on success emit a candidate and jump past the matched end,
otherwise advance one character.  `fuel` bounds the loop (the scan position
strictly increases, so `text.length + 1` suffices). -/
def ebmGo (text : List Char) : Nat → Nat → List Candidate
  | 0, _ => []
  | fuel + 1, i =>
    match (text.drop i).head? with
    | none => []
    | some c =>
      if c = '{' || c = '[' then
        match matchBraces text i with
        | some (s, e) =>
          let raw := (text.drop s).take (e + 1 - s)
          ⟨raw, s, e + 1, .brace_match, calcBraceConf raw⟩ :: ebmGo text fuel (e + 1)
        | none => ebmGo text fuel (i + 1)
      else ebmGo text fuel (i + 1)

/-- `extract_from_brace_matching`. -/
def extract_from_brace_matching (text : List Char) : List Candidate :=
  ebmGo text (text.length + 1) 0

/-- `_looks_like_json`: trimmed text is nonempty, starts with `{` or `[`,
and ends with `}` or `]` (the Python membership test `in "}}]"`). -/
def looksLikeJson (t : List Char) : Bool :=
  let s := pyStrip t
  match s.head?, s.getLast? with
  | some c0, some c1 => (c0 = '{' || c0 = '[') && (c1 = '}' || c1 = ']')
  | _, _ => false

/-- `extract_direct`. -/
def extract_direct (text : List Char) : List Candidate :=
  let stripped := pyStrip text
  if stripped = [] then []
  else if looksLikeJson stripped then
    [⟨stripped, 0, text.length, .direct_parse, 1⟩]
  else []

/-- The backtick character (the markdown fence delimiter). -/
def btick : Char := Char.ofNat 96

/-- Character at index `i`. -/
def charAt (text : List Char) (i : Nat) : Option Char := (text.drop i).head?

/-- Case-sensitive literal match at index `i`; returns the index after the
literal. -/
def matchLit (text : List Char) : Nat → List Char → Option Nat
  | i, [] => some i
  | i, l :: ls =>
    match charAt text i with
    | some c => if c = l then matchLit text (i + 1) ls else none
    | none => none

/-- Case-insensitive (ASCII) literal match at index `i`. -/
def matchLitCI (text : List Char) : Nat → List Char → Option Nat
  | i, [] => some i
  | i, l :: ls =>
    match charAt text i with
    | some c => if c.toLower = l.toLower then matchLitCI text (i + 1) ls else none
    | none => none

/-- Length of the maximal whitespace (`\s*`) run at index `i`. -/
def wsRun (text : List Char) (i : Nat) : Nat :=
  ((text.drop i).takeWhile isPyWs).length

/-- Offsets (largest first) of the newline characters inside the whitespace
run at `i`: the greedy backtracking positions of `\s*\n`. -/
def nlOffsetsDesc (text : List Char) (i : Nat) : List Nat :=
  ((List.range (wsRun text i)).filter (fun k => charAt text (i + k) = some '\n')).reverse

/-- The literal triple backtick. -/
def fence3 : List Char := [btick, btick, btick]

/-- Search (smallest position first) for the closing `\n\s*` ``` ` ``` ` ``` ``
of a fence starting the scan at `ce`; backtracking inside `\s*` cannot help
(whitespace is never a backtick), so only the maximal whitespace run is
tried.  Returns `(contentEnd, matchEnd)`. -/
def closeFence (text : List Char) : Nat → Nat → Option (Nat × Nat)
  | 0, _ => none
  | fuel + 1, ce =>
    match charAt text ce with
    | none => none
    | some c =>
      if c = '\n' then
        let j := ce + 1 + wsRun text (ce + 1)
        match matchLit text j fence3 with
        | some j2 => some (ce, j2)
        | none => closeFence text fuel (ce + 1)
      else closeFence text fuel (ce + 1)

/-- Try the lazy-group content starts (one per `\n` backtracking position of
the opening `\s*\n`, greedy first); for each, search for the closing fence.
Returns `(contentStart, contentEnd, matchEnd)`. -/
def tryContentStarts (text : List Char) (q0 : Nat) : List Nat → Option (Nat × Nat × Nat)
  | [] => none
  | k :: ks =>
    let cs := q0 + k + 1
    match closeFence text (text.length + 1) cs with
    | some (ce, mend) => some (cs, ce, mend)
    | none => tryContentStarts text q0 ks

/-- Attempt the `_MARKDOWN_FENCE_JSON` pattern
(`` ```json\s*\n([\s\S]*?)\n\s*``` ``, case-insensitive) at position `p`. -/
def tryJsonFenceAt (text : List Char) (p : Nat) : Option (Nat × Nat × Nat) :=
  match matchLit text p fence3 with
  | none => none
  | some p1 =>
    match matchLitCI text p1 ['j', 's', 'o', 'n'] with
    | none => none
    | some p2 => tryContentStarts text p2 (nlOffsetsDesc text p2)

/-- Attempt the `_MARKDOWN_FENCE_ANY` pattern
(`` ```(?:\w+)?\s*\n([\s\S]*?)\n\s*``` ``) at position `p`; the optional
word-run is deterministic (a shorter run leaves a word character where
`\s*\n` must match). -/
def tryAnyFenceAt (text : List Char) (p : Nat) : Option (Nat × Nat × Nat) :=
  match matchLit text p fence3 with
  | none => none
  | some p1 =>
    let p2 := p1 + ((text.drop p1).takeWhile isIdentCont).length
    tryContentStarts text p2 (nlOffsetsDesc text p2)

/-- `finditer` over a fence pattern: leftmost matches, scanning resuming
after each match (non-overlapping). -/
def finditFence (tryAt : List Char → Nat → Option (Nat × Nat × Nat))
    (text : List Char) : Nat → Nat → List (Nat × Nat × Nat)
  | 0, _ => []
  | fuel + 1, p =>
    if p > text.length then []
    else
      match tryAt text p with
      | some (cs, ce, mend) => (cs, ce, mend) :: finditFence tryAt text fuel mend
      | none => finditFence tryAt text fuel (p + 1)

/-- Body of the JSON-tagged fence loop of `extract_from_markdown_fence`:
accept the stripped group content when it looks like JSON, at confidence
0.95. -/
def fenceAccumJson (text : List Char) (acc : List Candidate)
    (m : Nat × Nat × Nat) : List Candidate :=
  let content := pyStrip ((text.drop m.1).take (m.2.1 - m.1))
  if content ≠ [] ∧ looksLikeJson content then
    acc ++ [⟨content, m.1, m.2.1, .markdown_fence, 95 / 100⟩]
  else acc

/-- Body of the generic fence loop of `extract_from_markdown_fence`: like
`fenceAccumJson` at confidence 0.85, but discarded when either group
boundary falls within an already-accepted candidate's span. -/
def fenceAccumAny (text : List Char) (acc : List Candidate)
    (m : Nat × Nat × Nat) : List Candidate :=
  let content := pyStrip ((text.drop m.1).take (m.2.1 - m.1))
  if content ≠ [] ∧ looksLikeJson content then
    if acc.any (fun c =>
        (c.start_pos ≤ m.1 ∧ m.1 ≤ c.end_pos) ∨
        (c.start_pos ≤ m.2.1 ∧ m.2.1 ≤ c.end_pos)) then acc
    else acc ++ [⟨content, m.1, m.2.1, .markdown_fence, 85 / 100⟩]
  else acc

/-- `extract_from_markdown_fence`: JSON-tagged fences at confidence 0.95,
then generic fences at 0.85. -/
def extract_from_markdown_fence (text : List Char) : List Candidate :=
  let jsonCands :=
    (finditFence tryJsonFenceAt text (text.length + 1) 0).foldl
      (fenceAccumJson text) []
  (finditFence tryAnyFenceAt text (text.length + 1) 0).foldl
    (fenceAccumAny text) jsonCands

/-- First matching alternative (case-insensitive), regex alternation order. -/
def matchAlt (text : List Char) (i : Nat) : List (List Char) → Option Nat
  | [] => none
  | a :: as =>
    match matchLitCI text i a with
    | some j => some j
    | none => matchAlt text i as

/-- The common `:?\s*` tail of the heuristic patterns. -/
def colonWsTail (text : List Char) (i : Nat) : Nat :=
  let j := if charAt text i = some ':' then i + 1 else i
  j + wsRun text j

/-- Shared tail ``  (?:json|output|result|response):?\s* `` of the first
heuristic pattern (starting at the literal space). -/
def heurP1Tail (text : List Char) (i : Nat) : Option Nat :=
  match matchLitCI text i [' '] with
  | none => none
  | some j =>
    match matchAlt text j
      [['j', 's', 'o', 'n'], ['o', 'u', 't', 'p', 'u', 't'],
       ['r', 'e', 's', 'u', 'l', 't'],
       ['r', 'e', 's', 'p', 'o', 'n', 's', 'e']] with
    | none => none
    | some k => some (colonWsTail text k)

/-- Heuristic pattern 1:
`(?:here(?:'s| is)(?: the)? (?:json|output|result|response)):?\s*`;
the optional `(?: the)` backtracks when the tail fails with it. -/
def heurP1At (text : List Char) (p : Nat) : Option Nat :=
  match matchLitCI text p ['h', 'e', 'r', 'e'] with
  | none => none
  | some p1 =>
    match matchAlt text p1 [['\'', 's'], [' ', 'i', 's']] with
    | none => none
    | some p2 =>
      match matchLitCI text p2 [' ', 't', 'h', 'e'] with
      | some p3 =>
        match heurP1Tail text p3 with
        | some r => some r
        | none => heurP1Tail text p2
      | none => heurP1Tail text p2

/-- Heuristic pattern 2: `(?:json (?:output|response|result)):?\s*`. -/
def heurP2At (text : List Char) (p : Nat) : Option Nat :=
  match matchLitCI text p ['j', 's', 'o', 'n', ' '] with
  | none => none
  | some p1 =>
    match matchAlt text p1
      [['o', 'u', 't', 'p', 'u', 't'], ['r', 'e', 's', 'p', 'o', 'n', 's', 'e'],
       ['r', 'e', 's', 'u', 'l', 't']] with
    | none => none
    | some p2 => some (colonWsTail text p2)

/-- Heuristic pattern 3: `(?:output|result|response):?\s*`. -/
def heurP3At (text : List Char) (p : Nat) : Option Nat :=
  match matchAlt text p
    [['o', 'u', 't', 'p', 'u', 't'], ['r', 'e', 's', 'u', 'l', 't'],
     ['r', 'e', 's', 'p', 'o', 'n', 's', 'e']] with
  | none => none
  | some p1 => some (colonWsTail text p1)

/-- `finditer` over one heuristic pattern, yielding match end positions. -/
def finditHeur (tryAt : List Char → Nat → Option Nat) (text : List Char) :
    Nat → Nat → List Nat
  | 0, _ => []
  | fuel + 1, p =>
    if p > text.length then []
    else
      match tryAt text p with
      | some e => e :: finditHeur tryAt text fuel e
      | none => finditHeur tryAt text fuel (p + 1)

/-- Per-pattern body of `extract_heuristic`: after one pattern match, run
brace matching on the remainder and keep only its first candidate,
translated back to the original offsets, confidence 0.6. -/
def heurAccum (text : List Char) (acc : List Candidate) (e : Nat) :
    List Candidate :=
  match (extract_from_brace_matching (text.drop e)).head? with
  | some bc => acc ++ [⟨bc.raw, e + bc.start_pos, e + bc.end_pos, .heuristic, 6 / 10⟩]
  | none => acc

/-- Accumulation over one pattern's match ends (see `heurAccum`). -/
def heurCandidates (text : List Char) (ends : List Nat) : List Candidate :=
  ends.foldl (heurAccum text) []

/-- `extract_heuristic`: the three prefix patterns in source order. -/
def extract_heuristic (text : List Char) : List Candidate :=
  heurCandidates text (finditHeur heurP1At text (text.length + 1) 0) ++
  heurCandidates text (finditHeur heurP2At text (text.length + 1) 0) ++
  heurCandidates text (finditHeur heurP3At text (text.length + 1) 0)

/-- Deduplication by exact raw-text equality, first occurrence kept (the
`seen_raw` set loop of `extract_all_candidates`). -/
def dedupByRaw : List Candidate → List (List Char) → List Candidate
  | [], _ => []
  | c :: cs, seen =>
    if seen.contains c.raw then dedupByRaw cs seen
    else c :: dedupByRaw cs (c.raw :: seen)

/-- Stable insert for a descending sort: `x` goes before the first element
whose key does not exceed it, so earlier-listed elements win ties. -/
def insertDescBy {β : Type} [LinearOrder β] (key : Candidate → β)
    (x : Candidate) : List Candidate → List Candidate
  | [] => [x]
  | y :: ys => if key y ≤ key x then x :: y :: ys else y :: insertDescBy key x ys

/-- Stable descending sort by key (the semantics of Python's stable
`sort(key=..., reverse=True)`). -/
def sortDescBy {β : Type} [LinearOrder β] (key : Candidate → β) :
    List Candidate → List Candidate
  | [] => []
  | x :: xs => insertDescBy key x (sortDescBy key xs)

/-- `extract_all_candidates`: all four strategies in order, dedup by raw,
sort by confidence descending. -/
def extract_all_candidates (text : List Char) : List Candidate :=
  sortDescBy (fun c => c.confidence)
    (dedupByRaw
      (extract_direct text ++ extract_from_markdown_fence text ++
        extract_from_brace_matching text ++ extract_heuristic text) [])

/-- The ranking score of `rank_candidates`. -/
def rankingScore (c : Candidate) : ℚ :=
  let s0 := c.confidence
  let s1 := s0 + min (1 / 10 : ℚ) ((c.raw.length : ℚ) / 10000)
  if c.method = .direct_parse then s1 + 1 / 10 else s1

/-- `rank_candidates`. -/
def rank_candidates (cands : List Candidate) : List Candidate :=
  if cands = [] then [] else sortDescBy rankingScore cands

/-- `_sort_by_size`: raw-text length descending, stable. -/
def sort_by_size (cands : List Candidate) : List Candidate :=
  sortDescBy (fun c => c.raw.length) cands

/-- JSON structural whitespace (RFC 8259). -/
def isJsonWs (c : Char) : Bool := c = ' ' || c = '\t' || c = '\n' || c = '\r'

/-- Skip JSON whitespace. -/
def skipWs (l : List Char) : List Char := l.dropWhile isJsonWs

/-- Single-character string escapes of JSON. -/
def escChar : Char → Option Char
  | '"' => some '"'
  | '\\' => some '\\'
  | '/' => some '/'
  | 'b' => some '\x08'
  | 'f' => some '\x0c'
  | 'n' => some '\n'
  | 'r' => some '\r'
  | 't' => some '\t'
  | _ => none

/-- Hexadecimal digit value. -/
def hexDigitVal (c : Char) : Option Nat :=
  if '0' ≤ c ∧ c ≤ '9' then some (c.toNat - 48)
  else if 'a' ≤ c ∧ c ≤ 'f' then some (c.toNat - 87)
  else if 'A' ≤ c ∧ c ≤ 'F' then some (c.toNat - 55)
  else none

/-- Exponent tail of a JSON number. -/
def parseNumberExp (pre : List Char) (l : List Char) : Option (List Char × List Char) :=
  match l with
  | c :: r =>
    if c = 'e' ∨ c = 'E' then
      let (sgn, r1) : List Char × List Char :=
        match r with
        | '+' :: r2 => (['+'], r2)
        | '-' :: r2 => (['-'], r2)
        | _ => ([], r)
      let ds := r1.takeWhile Char.isDigit
      if ds = [] then none
      else some (pre ++ c :: (sgn ++ ds), r1.dropWhile Char.isDigit)
    else some (pre, l)
  | [] => some (pre, l)

/-- Fraction and exponent tail of a JSON number. -/
def parseNumberFrac (pre : List Char) (l : List Char) : Option (List Char × List Char) :=
  match l with
  | '.' :: r =>
    let ds := r.takeWhile Char.isDigit
    if ds = [] then none
    else parseNumberExp (pre ++ '.' :: ds) (r.dropWhile Char.isDigit)
  | _ => parseNumberExp pre l

/-- Lex a JSON number (`-?(0|[1-9][0-9]*)(\.[0-9]+)?([eE][+-]?[0-9]+)?`),
returning its lexeme and the remainder. -/
def parseNumber (l : List Char) : Option (List Char × List Char) :=
  let (neg, l1) : List Char × List Char :=
    match l with
    | '-' :: r => (['-'], r)
    | _ => ([], l)
  match l1 with
  | '0' :: r => parseNumberFrac (neg ++ ['0']) r
  | c :: r =>
    if c.isDigit then
      parseNumberFrac (neg ++ c :: r.takeWhile Char.isDigit) (r.dropWhile Char.isDigit)
    else none
  | [] => none

mutual

/-- Parse one JSON value after optional leading whitespace (fueled
recursive descent; the fuel is an upper bound on call depth, one character
is consumed per nested call). -/
def parseValue : Nat → List Char → Option (Json × List Char)
  | 0, _ => none
  | fuel + 1, l =>
    match skipWs l with
    | 'n' :: 'u' :: 'l' :: 'l' :: r => some (.null, r)
    | 't' :: 'r' :: 'u' :: 'e' :: r => some (.bool true, r)
    | 'f' :: 'a' :: 'l' :: 's' :: 'e' :: r => some (.bool false, r)
    | '"' :: r =>
      match parseStringBody fuel r with
      | some (s, r1) => some (.str s, r1)
      | none => none
    | '{' :: r =>
      match skipWs r with
      | '}' :: r1 => some (.obj [], r1)
      | _ =>
        match parseMembers fuel r with
        | some (kvs, r1) => some (.obj kvs, r1)
        | none => none
    | '[' :: r =>
      match skipWs r with
      | ']' :: r1 => some (.arr [], r1)
      | _ =>
        match parseElems fuel r with
        | some (vs, r1) => some (.arr vs, r1)
        | none => none
    | rest =>
      match parseNumber rest with
      | some (lex, r1) => some (.num lex, r1)
      | none => none

/-- Parse the contents of a JSON string after its opening quote, decoding
escapes (astral `\u` pairs are decoded per code unit, which no concrete
input here exercises). -/
def parseStringBody : Nat → List Char → Option (List Char × List Char)
  | 0, _ => none
  | fuel + 1, l =>
    match l with
    | '"' :: r => some ([], r)
    | '\\' :: e :: r =>
      match escChar e with
      | some c =>
        match parseStringBody fuel r with
        | some p => some (c :: p.1, p.2)
        | none => none
      | none =>
        if e = 'u' then
          match r with
          | h1 :: h2 :: h3 :: h4 :: r2 =>
            match hexDigitVal h1, hexDigitVal h2, hexDigitVal h3, hexDigitVal h4 with
            | some v1, some v2, some v3, some v4 =>
              match parseStringBody fuel r2 with
              | some p => some (Char.ofNat (((v1 * 16 + v2) * 16 + v3) * 16 + v4) :: p.1, p.2)
              | none => none
            | _, _, _, _ => none
          | _ => none
        else none
    | c :: r =>
      if c.toNat < 32 then none
      else
        match parseStringBody fuel r with
        | some p => some (c :: p.1, p.2)
        | none => none
    | [] => none

/-- Parse the members of a JSON object after its opening brace (at least
one member). -/
def parseMembers : Nat → List Char → Option (List (List Char × Json) × List Char)
  | 0, _ => none
  | fuel + 1, l =>
    match skipWs l with
    | '"' :: r =>
      match parseStringBody fuel r with
      | some (k, r1) =>
        match skipWs r1 with
        | ':' :: r2 =>
          match parseValue fuel r2 with
          | some (v, r3) =>
            match skipWs r3 with
            | ',' :: r4 =>
              match parseMembers fuel r4 with
              | some (kvs, r5) => some ((k, v) :: kvs, r5)
              | none => none
            | '}' :: r4 => some ([(k, v)], r4)
            | _ => none
          | none => none
        | _ => none
      | none => none
    | _ => none

/-- Parse the elements of a JSON array after its opening bracket (at least
one element). -/
def parseElems : Nat → List Char → Option (List Json × List Char)
  | 0, _ => none
  | fuel + 1, l =>
    match parseValue fuel l with
    | some (v, r1) =>
      match skipWs r1 with
      | ',' :: r2 =>
        match parseElems fuel r2 with
        | some (vs, r3) => some (v :: vs, r3)
        | none => none
      | ']' :: r2 => some ([v], r2)
      | _ => none
    | none => none

end

/-- Reference strict JSON decoder, used to instantiate the abstract `loads`
parameter on concrete inputs; it models the documented strict RFC 8259
behaviour of the external `orjson.loads` (a conformant decoder, per the
library boundary). -/
def parseJson (t : List Char) : Option Json :=
  match parseValue (4 * t.length + 8) t with
  | some (v, rest) => if skipWs rest = [] then some v else none
  | none => none

/-- The `strategy` flag of the public entry points. -/
inductive Strategy where
  | first
  | largest
  | all
deriving DecidableEq, Repr

/-- Message of the empty-input failure (interpolation-free). -/
def msgEmptyInput : List Char := "Empty input text".toList

/-- Message of the no-candidates failure. -/
def msgNoStructure : List Char := "No JSON structure found in input".toList

/-- Message prefix of the all-candidates-failed error (the candidate count
and the last decoder error are elided). -/
def msgFailedParse : List Char := "Failed to parse JSON".toList

/-- Message of the defensive raise in `extract_json`. -/
def msgFailedExtract : List Char := "Failed to extract JSON".toList

/-- Loop of `_extract_first_valid` over the ranked candidates: strict parse
first; on failure, if repair is enabled, repair and re-parse; the first
success returns, with confidence down-weighted by 0.9 when repairs were
applied and by 0.8 more when truncation was flagged. -/
def extractFirstValidGo (loads : List Char → Option Json) (rep : Bool)
    (total : Nat) : List Candidate → List RepairLabel → ExtractResult
  | [], allRepairs =>
    { success := false, candidates_found := total, repairs_applied := allRepairs,
      error := some ⟨msgFailedParse, .invalid_json, none⟩ }
  | c :: rest, allRepairs =>
    match loads c.raw with
    | some d =>
      { success := true, data := some (.single d), raw_json := some c.raw,
        confidence := c.confidence, method := some c.method,
        repairs_applied := [], candidates_found := total }
    | none =>
      if rep = false then extractFirstValidGo loads rep total rest allRepairs
      else
        let rr := repair_json c.raw
        match loads rr.repaired with
        | some d =>
          let conf0 := if rr.repairs_applied ≠ [] then c.confidence * (9 / 10)
                       else c.confidence
          let conf1 := if rr.is_truncated then conf0 * (8 / 10) else conf0
          { success := true, data := some (.single d),
            raw_json := some rr.repaired, confidence := conf1,
            method := some c.method, repairs_applied := rr.repairs_applied,
            candidates_found := total }
        | none =>
          extractFirstValidGo loads rep total rest (allRepairs ++ rr.repairs_applied)

/-- `_extract_first_valid`: rank, then try candidates in order. -/
def extract_first_valid (loads : List Char → Option Json)
    (cands : List Candidate) (rep : Bool) : ExtractResult :=
  let ranked := rank_candidates cands
  extractFirstValidGo loads rep ranked.length ranked []

/-- Accumulator of `_extract_all`. -/
structure AllAcc where
  results : List Json
  all_repairs : List RepairLabel
  methods : List ExtractionMethod
  max_confidence : ℚ

/-- Per-candidate step of `_extract_all` (no truncation down-weight in this
branch, matching the source). -/
def extractAllStep (loads : List Char → Option Json) (rep : Bool)
    (acc : AllAcc) (c : Candidate) : AllAcc :=
  match loads c.raw with
  | some d =>
    { acc with
      results := acc.results ++ [d]
      methods := acc.methods ++ [c.method]
      max_confidence := max acc.max_confidence c.confidence }
  | none =>
    if rep = false then acc
    else
      let rr := repair_json c.raw
      match loads rr.repaired with
      | some d =>
        let adjusted := if rr.repairs_applied ≠ [] then c.confidence * (9 / 10)
                        else c.confidence
        { results := acc.results ++ [d],
          all_repairs := acc.all_repairs ++ rr.repairs_applied,
          methods := acc.methods ++ [c.method],
          max_confidence := max acc.max_confidence adjusted }
      | none =>
        { acc with all_repairs := acc.all_repairs ++ rr.repairs_applied }

/-- `_extract_all`. -/
def extract_all (loads : List Char → Option Json) (cands : List Candidate)
    (rep : Bool) : ExtractResult :=
  let acc := cands.foldl (extractAllStep loads rep) ⟨[], [], [], 0⟩
  if acc.results.isEmpty then
    { success := false, candidates_found := cands.length,
      repairs_applied := acc.all_repairs,
      error := some ⟨msgFailedParse, .invalid_json, none⟩ }
  else
    { success := true, data := some (.many acc.results),
      confidence := acc.max_confidence, method := acc.methods.head?,
      repairs_applied := acc.all_repairs, candidates_found := cands.length }

/-- `extract_json_with_metadata`. -/
def extract_json_with_metadata (loads : List Char → Option Json)
    (text : List Char) (rep : Bool) (strategy : Strategy) : ExtractResult :=
  if pyStrip text = [] then
    { success := false, error := some ⟨msgEmptyInput, .no_json_found, none⟩ }
  else
    let cands := extract_all_candidates text
    if cands = [] then
      { success := false, candidates_found := 0,
        error := some ⟨msgNoStructure, .no_json_found, none⟩ }
    else
      match strategy with
      | .all => extract_all loads cands rep
      | .largest => extract_first_valid loads (sort_by_size cands) rep
      | .first => extract_first_valid loads cands rep

/-- `extract_json`: raises (`Except.error`) on failure when
`raise_on_error`, else returns an absent value. -/
def extract_json (loads : List Char → Option Json) (text : List Char)
    (rep : Bool) (strategy : Strategy) (raise_on_error : Bool) :
    Except ExtractError (Option PyData) :=
  let r := extract_json_with_metadata loads text rep strategy
  if r.success then .ok r.data
  else if raise_on_error then
    match r.error with
    | some e => .error e
    | none => .error ⟨msgFailedExtract, .no_json_found, none⟩
  else .ok none

/-! Specification-side definitions, written from the claims' words, to be
compared against the source embeddings above. -/

/-- The brace-match confidence formula as the specification words it: base
0.8, +0.05 for a quote, +0.05 for a colon, −0.1 when shorter than 10
characters, clamped into [0.5, 0.9]. -/
def braceConfFormula (raw : List Char) : ℚ :=
  min (9 / 10) (max (5 / 10)
    ((8 : ℚ) / 10 + (if raw.contains '"' then 5 / 100 else 0) +
      (if raw.contains ':' then 5 / 100 else 0) -
      (if raw.length < 10 then 1 / 10 else 0)))

/-- State of the claim's truncation-detection replay: a stack of still-open
openers, the in-string flag and the escape flag. -/
structure SpecScan where
  stack : List Char
  inStr : Bool
  esc : Bool
deriving DecidableEq, Repr

/-- One step of the stack-based state machine that the truncation claim
describes: closers pop a matching still-open opener and are otherwise
ignored. -/
def specScanStep (s : SpecScan) (c : Char) : SpecScan :=
  if s.esc then { s with esc := false }
  else if c = '\\' then { s with esc := true }
  else if c = '"' then { s with inStr := !s.inStr }
  else if s.inStr then s
  else if c = '{' || c = '[' then { s with stack := c :: s.stack }
  else if c = '}' then
    match s.stack with
    | '{' :: r => { s with stack := r }
    | _ => s
  else if c = ']' then
    match s.stack with
    | '[' :: r => { s with stack := r }
    | _ => s
  else s

/-- Truncation detection as the claim states it: replay the
bracket/string/escape state machine over the trimmed text; truncated iff
it ends with the in-string flag open, a non-empty stack of still-open
openers, or a trailing live escape. -/
def isTruncatedSpec (t : List Char) : Bool :=
  let stripped := pyStrip t
  if stripped = [] then false
  else
    let s := stripped.foldl specScanStep ⟨[], false, false⟩
    s.inStr || !s.stack.isEmpty || s.esc

/-- The structural view of a text: the characters seen outside
double-quoted strings, with escaped characters skipped — the positions at
which the truncation scan updates its bracket counters. -/
def structView : List Char → Bool → Bool → List Char
  | [], _, _ => []
  | c :: r, inStr, esc =>
    if esc then structView r inStr false
    else if c = '\\' then structView r inStr true
    else if c = '"' then structView r (!inStr) esc
    else if inStr then structView r inStr esc
    else c :: structView r inStr esc

/-- Final (in-string, escape-pending) flags of the string/escape scan. -/
def scanFlags : List Char → Bool → Bool → Bool × Bool
  | [], inStr, esc => (inStr, esc)
  | c :: r, inStr, esc =>
    if esc then scanFlags r inStr false
    else if c = '\\' then scanFlags r inStr true
    else if c = '"' then scanFlags r (!inStr) esc
    else scanFlags r inStr esc

/-- Contents of a double-quoted string as the balanced-match machine scans
it: any character other than a quote or backslash, or a backslash followed
by an arbitrary escaped character. -/
inductive StrBody : List Char → Prop where
  | nil : StrBody []
  | chr {c : Char} {s : List Char} : c ≠ '"' → c ≠ '\\' → StrBody s →
      StrBody (c :: s)
  | esc {s : List Char} (c : Char) : StrBody s → StrBody ('\\' :: c :: s)

/-- Properly-paired bracketed text outside strings: neutral characters,
escape pairs, complete double-quoted strings, and well-nested `{…}`/`[…]`
groups, concatenated. -/
inductive Bal : List Char → Prop where
  | nil : Bal []
  | chr {c : Char} {s : List Char} :
      c ≠ '{' → c ≠ '[' → c ≠ '}' → c ≠ ']' → c ≠ '"' → c ≠ '\\' →
      Bal s → Bal (c :: s)
  | esc {s : List Char} (c : Char) : Bal s → Bal ('\\' :: c :: s)
  | str {b s : List Char} : StrBody b → Bal s → Bal ('"' :: b ++ '"' :: s)
  | brace {b s : List Char} : Bal b → Bal s → Bal ('{' :: b ++ '}' :: s)
  | bracket {b s : List Char} : Bal b → Bal s → Bal ('[' :: b ++ ']' :: s)

/-- A candidate attempt fails when its raw text does not parse and (with
repair enabled) its repaired text does not parse either. -/
def attemptFails (loads : List Char → Option Json) (rep : Bool)
    (c : Candidate) : Prop :=
  loads c.raw = none ∧ (rep = true → loads (repair_json c.raw).repaired = none)

/-- The result `r` is the success that `_extract_first_valid` returns for
candidate `c`: either the strict-parse success (original confidence, zero
repairs) or the repaired-parse success (confidence down-weighted by 0.9
when repairs were applied, by a further 0.8 when truncation was flagged,
method preserved). -/
def successFor (loads : List Char → Option Json) (total : Nat)
    (c : Candidate) (r : ExtractResult) : Prop :=
  r.success = true ∧ r.method = some c.method ∧ r.candidates_found = total ∧
  r.error = none ∧
  ((∃ d, loads c.raw = some d ∧ r.data = some (.single d) ∧
      r.raw_json = some c.raw ∧ r.confidence = c.confidence ∧
      r.repairs_applied = []) ∨
   (loads c.raw = none ∧
    ∃ d, loads (repair_json c.raw).repaired = some d ∧
      r.data = some (.single d) ∧
      r.raw_json = some (repair_json c.raw).repaired ∧
      r.repairs_applied = (repair_json c.raw).repairs_applied ∧
      r.confidence =
        (let conf0 := if (repair_json c.raw).repairs_applied ≠ [] then
            c.confidence * (9 / 10) else c.confidence
         if (repair_json c.raw).is_truncated then conf0 * (8 / 10) else conf0)))

/-! Helper lemmas. -/

theorem pyRstrip_eq_rdropWhile (t : List Char) :
    pyRstrip t = t.rdropWhile isPyWs := rfl

theorem pyStrip_empty_of_all_ws {t : List Char}
    (h : ∀ c ∈ t, isPyWs c = true) : pyStrip t = [] := by
  have h1 : pyLstrip t = [] := List.dropWhile_eq_nil_iff.mpr h
  simp [pyStrip, h1, pyRstrip]

theorem pyLstrip_pyRstrip_of_lstripped {t : List Char}
    (h : pyLstrip t = t) : pyLstrip (pyRstrip t) = pyRstrip t := by
  unfold pyLstrip at h ⊢
  rw [pyRstrip_eq_rdropWhile]
  rw [List.dropWhile_eq_self_iff] at h ⊢
  intro hl
  have hpre : t.rdropWhile isPyWs <+: t := List.rdropWhile_prefix _ _
  have hlen : 0 < t.length := lt_of_lt_of_le hl hpre.length_le
  simp only [List.get_eq_getElem]
  rw [hpre.getElem hl]
  simpa [List.get_eq_getElem] using h hlen

theorem pyStrip_idem (t : List Char) : pyStrip (pyStrip t) = pyStrip t := by
  have h1 : pyLstrip (pyLstrip t) = pyLstrip t :=
    List.dropWhile_idempotent isPyWs (l := t)
  show pyRstrip (pyLstrip (pyRstrip (pyLstrip t))) = pyRstrip (pyLstrip t)
  rw [pyLstrip_pyRstrip_of_lstripped h1]
  rw [pyRstrip_eq_rdropWhile, pyRstrip_eq_rdropWhile,
    List.rdropWhile_idempotent]

/-! C10 — the repair rewrites are not string-aware. -/

/-- C10: trailing-comma removal deletes a comma inside a double-quoted
string literal: on the strictly-valid JSON text `{"a": ",}"}` the repaired
text differs from the input and parses to a different value (the string
value loses its comma). -/
theorem claim_C10 :
    (repair_json ['{', '"', 'a', '"', ':', ' ', '"', ',', '}', '"', '}']).repaired
        = ['{', '"', 'a', '"', ':', ' ', '"', '}', '"', '}']
    ∧ (['{', '"', 'a', '"', ':', ' ', '"', ',', '}', '"', '}'] : List Char)
        ≠ ['{', '"', 'a', '"', ':', ' ', '"', '}', '"', '}']
    ∧ parseJson ['{', '"', 'a', '"', ':', ' ', '"', ',', '}', '"', '}']
        = some (.obj [(['a'], .str [',', '}'])])
    ∧ parseJson ['{', '"', 'a', '"', ':', ' ', '"', '}', '"', '}']
        = some (.obj [(['a'], .str ['}'])])
    ∧ (Json.obj [(['a'], .str [',', '}'])] = Json.obj [(['a'], .str ['}'])]
        → False) := by
  refine ⟨by decide, by decide, rfl, rfl, ?_⟩
  intro h
  injection h with h1
  have h2 : ([(['a'], Json.str [',', '}'])] : List (List Char × Json))
      = [(['a'], Json.str ['}'])] := h1
  have h3 := congrArg List.head? h2
  simp only [List.head?] at h3
  injection h3 with h4
  have h5 := congrArg Prod.snd h4
  simp only at h5
  injection h5 with h6
  exact absurd h6 (by decide)

/-! C2 — repair is not idempotent in general; it is on inputs where the
pass loop reaches its fixed point and no truncation completion fires. -/

/-- C2 counterexample: on `{"a": 1,` the first repair completes the
truncated object to `{"a": 1,}`, and a second repair removes the trailing
comma it introduced, so the repaired text changes again. -/
theorem claim_C2_counterexample :
    (repair_json (repair_json ['{', '"', 'a', '"', ':', ' ', '1', ',']).repaired).repaired
      ≠ (repair_json ['{', '"', 'a', '"', ':', ' ', '1', ',']).repaired := by decide

/-- C2 (amended): whenever the iterated pass loop reaches a fixed point of
the four rewrites and its result is not detected as truncated (so no
completion is appended), a second application of repair produces no further
change to the repaired text. -/
theorem claim_C2 (t : List Char)
    (hfix : (passesOnce (repairLoop 5 t).1).1 = (repairLoop 5 t).1)
    (htr : is_truncated_json (repairLoop 5 t).1 = false) :
    (repair_json (repair_json t).repaired).repaired
      = (repair_json t).repaired := by
  have h1 : (repair_json t).repaired = (repairLoop 5 t).1 := by
    unfold repair_json
    simp only [htr, Bool.false_eq_true, if_false]
  have h2 : repairLoop 5 (repairLoop 5 t).1 = passesOnce (repairLoop 5 t).1 := by
    show (let p := passesOnce (repairLoop 5 t).1
          if p.1 = (repairLoop 5 t).1 then p
          else
            let q := repairLoop 4 p.1
            (q.1, p.2 ++ q.2)) = _
    simp only
    rw [if_pos hfix]
  have h3 : is_truncated_json (repairLoop 5 (repairLoop 5 t).1).1 = false := by
    rw [h2, hfix]
    exact htr
  rw [h1]
  unfold repair_json
  simp only [h3, Bool.false_eq_true, if_false]
  rw [h2, hfix]

/-- C2 witness: on `{"a":1,}` the loop reaches its fixed point `{"a":1}`
untruncated, and repair is idempotent there. -/
theorem claim_C2_witness :
    (passesOnce (repairLoop 5 ['{', '"', 'a', '"', ':', '1', ',', '}']).1).1
        = (repairLoop 5 ['{', '"', 'a', '"', ':', '1', ',', '}']).1
    ∧ is_truncated_json (repairLoop 5 ['{', '"', 'a', '"', ':', '1', ',', '}']).1 = false
    ∧ (repair_json (repair_json ['{', '"', 'a', '"', ':', '1', ',', '}']).repaired).repaired
        = (repair_json ['{', '"', 'a', '"', ':', '1', ',', '}']).repaired :=
  ⟨by decide, by decide,
    claim_C2 ['{', '"', 'a', '"', ':', '1', ',', '}'] (by decide) (by decide)⟩

/-! C3 — direct detection does not check structural correspondence. -/

/-- C3 counterexample: on `[1}` — trimmed text starting with `[` but ending
with `}` — the direct strategy emits a candidate with confidence 1.0 and
method direct, where the claim requires that it emit none. -/
theorem claim_C3_counterexample :
    extract_direct ['[', '1', '}']
      = [⟨['[', '1', '}'], 0, 3, ExtractionMethod.direct_parse, 1⟩] := by decide

/-- C3 (amended): the direct strategy emits a candidate — the trimmed text,
confidence 1.0, method direct, spanning offsets 0 to the text length —
exactly when the trimmed text is nonempty, starts with `{` or `[`, and ends
with `}` or `]`; the closer need not structurally correspond to the
opener. -/
theorem claim_C3 (text : List Char) :
    (extract_direct text ≠ [] ↔
      ((pyStrip text).head? = some '{' ∨ (pyStrip text).head? = some '[') ∧
      ((pyStrip text).getLast? = some '}' ∨ (pyStrip text).getLast? = some ']')) ∧
    ∀ cand ∈ extract_direct text,
      cand = ⟨pyStrip text, 0, text.length, ExtractionMethod.direct_parse, 1⟩ := by
  unfold extract_direct
  have hidem := pyStrip_idem text
  by_cases hnil : pyStrip text = []
  · simp [hnil]
  · have hlooks : looksLikeJson (pyStrip text) = true ↔
        ((pyStrip text).head? = some '{' ∨ (pyStrip text).head? = some '[') ∧
        ((pyStrip text).getLast? = some '}' ∨ (pyStrip text).getLast? = some ']') := by
      unfold looksLikeJson
      rw [hidem]
      rcases hh : (pyStrip text).head? with - | c0
      · exact absurd (List.head?_eq_none_iff.mp hh) hnil
      · rcases hl : (pyStrip text).getLast? with - | c1
        · rw [List.getLast?_eq_none_iff] at hl
          exact absurd hl hnil
        · dsimp only
          rw [hh, hl]
          simp [Bool.and_eq_true, Bool.or_eq_true]
    by_cases hLJ : looksLikeJson (pyStrip text) = true
    · simp only [hnil, if_false, hLJ, if_true]
      refine ⟨⟨fun _ => hlooks.mp hLJ, fun _ => by simp⟩, ?_⟩
      intro cand hcand
      simpa using hcand
    · have hLJ' : looksLikeJson (pyStrip text) = false := by
        simpa using hLJ
      simp only [hnil, if_false, hLJ', Bool.false_eq_true]
      refine ⟨⟨fun habs => absurd rfl habs, fun hex => absurd (hlooks.mpr hex) hLJ⟩, ?_⟩
      intro cand hcand
      exact absurd hcand (by simp)

/-- C3 witness: on the text ` {}` the characterization and candidate shape
hold concretely. -/
theorem claim_C3_witness :
    extract_direct [' ', '{', '}'] ≠ []
    ∧ (⟨['{', '}'], 0, 3, ExtractionMethod.direct_parse, 1⟩ : Candidate)
        = ⟨pyStrip [' ', '{', '}'], 0, [' ', '{', '}'].length,
            ExtractionMethod.direct_parse, 1⟩ :=
  ⟨(claim_C3 [' ', '{', '}']).1.mpr ⟨Or.inl (by decide), Or.inl (by decide)⟩,
    (claim_C3 [' ', '{', '}']).2 _ (by decide)⟩

/-! C4 — truncation detection uses per-type counters, not a stack. -/

theorem scanStep_fold (l : List Char) : ∀ s : ScanCounts,
    l.foldl scanStep s =
      ⟨s.braces + ((structView l s.inStr s.esc).count '{' : Int)
          - ((structView l s.inStr s.esc).count '}' : Int),
        s.brackets + ((structView l s.inStr s.esc).count '[' : Int)
          - ((structView l s.inStr s.esc).count ']' : Int),
        (scanFlags l s.inStr s.esc).1, (scanFlags l s.inStr s.esc).2⟩ := by
  induction l with
  | nil =>
    intro s
    cases s
    simp [structView, scanFlags]
  | cons c r ih =>
    intro s
    obtain ⟨b1, b2, i1, e1⟩ := s
    simp only [List.foldl_cons]
    rw [ih]
    cases e1
    · by_cases hbs : c = '\\'
      · subst hbs
        simp [scanStep, structView, scanFlags]
      · by_cases hq : c = '"'
        · subst hq
          simp [scanStep, structView, scanFlags]
        · cases i1
          · by_cases h1 : c = '{'
            · subst h1
              simp [scanStep, structView, scanFlags, List.count_cons]
              omega
            · by_cases h2 : c = '}'
              · subst h2
                simp [scanStep, structView, scanFlags, List.count_cons]
                omega
              · by_cases h3 : c = '['
                · subst h3
                  simp [scanStep, structView, scanFlags, List.count_cons]
                  omega
                · by_cases h4 : c = ']'
                  · subst h4
                    simp [scanStep, structView, scanFlags, List.count_cons]
                    omega
                  · simp [scanStep, structView, scanFlags, List.count_cons,
                      hbs, hq, h1, h2, h3, h4]
          · simp [scanStep, structView, scanFlags, hbs, hq]
    · simp [scanStep, structView, scanFlags]

/-- C4 counterexample: on `}{` the code's counter-based scan balances out
and reports not-truncated, while the claim's stack machine ends with the
opener `{` still open and so requires truncated. -/
theorem claim_C4_counterexample :
    is_truncated_json ['}', '{'] = false
    ∧ isTruncatedSpec ['}', '{'] = true := by decide

theorem if_chain_eq_true (x y z : Bool) :
    ((if x = true then true else if y = true then true else z) = true) ↔
      (x = true ∨ y = true ∨ z = true) := by
  cases x <;> cases y <;> cases z <;> simp

/-- C4 (amended): `is_truncated_json` is true iff the trimmed text is
nonempty and the scan ends inside a string, mid-escape, or with more
opening than closing braces — or more opening than closing brackets —
among the structural (outside-string, unescaped) characters, each closer
counting even when it closes nothing; empty and whitespace-only texts are
never truncated. -/
theorem claim_C4 :
    (∀ t : List Char,
      (is_truncated_json t = true ↔
        pyStrip t ≠ [] ∧
          ((scanFlags (pyStrip t) false false).1 = true ∨
           (scanFlags (pyStrip t) false false).2 = true ∨
           (structView (pyStrip t) false false).count '}' <
             (structView (pyStrip t) false false).count '{' ∨
           (structView (pyStrip t) false false).count ']' <
             (structView (pyStrip t) false false).count '['))) ∧
    ∀ t : List Char, (∀ c ∈ t, isPyWs c = true) → is_truncated_json t = false := by
  constructor
  · intro t
    unfold is_truncated_json
    by_cases hnil : pyStrip t = []
    · simp [hnil]
    · simp only [hnil, if_false]
      rw [scanStep_fold (pyStrip t) ⟨0, 0, false, false⟩]
      simp only [ne_eq, hnil, not_false_eq_true, true_and, zero_add]
      rw [if_chain_eq_true]
      simp only [Bool.or_eq_true, decide_eq_true_eq]
      constructor
      · rintro (h | (h | h) | h)
        · exact Or.inl h
        · right; right; left; omega
        · right; right; right; omega
        · right; left; exact h
      · rintro (h | h | h | h)
        · exact Or.inl h
        · right; right; exact h
        · right; left; left; omega
        · right; left; right; omega
  · intro t hws
    unfold is_truncated_json
    simp [pyStrip_empty_of_all_ws hws]

/-- C4 witness: a single space is not truncated; a lone `{` is truncated,
matching the amended characterization. -/
theorem claim_C4_witness :
    is_truncated_json [' '] = false ∧ is_truncated_json ['{'] = true :=
  ⟨claim_C4.2 [' '] (by decide),
    (claim_C4.1 ['{']).mpr ⟨by decide, by decide⟩⟩

/-! C6 — brace-match confidence formula. -/

theorem calcBraceConf_eq_formula (raw : List Char) :
    calcBraceConf raw = braceConfFormula raw := by
  unfold calcBraceConf braceConfFormula
  split_ifs <;> norm_num

theorem ebmGo_confidence (text : List Char) :
    ∀ fuel i c, c ∈ ebmGo text fuel i → c.confidence = calcBraceConf c.raw := by
  intro fuel
  induction fuel with
  | zero =>
    intro i c hc
    simp [ebmGo] at hc
  | succ n ih =>
    intro i c hc
    simp only [ebmGo] at hc
    rcases hh : (text.drop i).head? with - | c0 <;> simp only [hh] at hc
    · simp at hc
    · by_cases hop : (c0 = '{' || c0 = '[') = true
      · rw [if_pos hop] at hc
        rcases hm : matchBraces text i with - | ⟨s, e⟩ <;> rw [hm] at hc
        · exact ih (i + 1) c hc
        · rcases List.mem_cons.mp hc with h | h
          · subst h
            rfl
          · exact ih (e + 1) c h
      · rw [if_neg hop] at hc
        exact ih (i + 1) c hc

/-- C6: every candidate returned by the brace-matching strategy carries
exactly the specified confidence: base 0.8, +0.05 for a contained quote,
+0.05 for a contained colon, −0.1 when shorter than 10 characters, clamped
into [0.5, 0.9]. -/
theorem claim_C6 (text : List Char) (c : Candidate)
    (hc : c ∈ extract_from_brace_matching text) :
    c.confidence = braceConfFormula c.raw := by
  rw [← calcBraceConf_eq_formula]
  exact ebmGo_confidence text (text.length + 1) 0 c hc

/-- C6 witness: the single candidate found in `x{"a":1}` has confidence
0.8 = 0.8 + 0.05 + 0.05 − 0.1, clamped trivially. -/
theorem claim_C6_witness :
    (⟨['{', '"', 'a', '"', ':', '1', '}'], 1, 8, ExtractionMethod.brace_match,
        4 / 5⟩ : Candidate)
      ∈ extract_from_brace_matching ['x', '{', '"', 'a', '"', ':', '1', '}']
    ∧ (4 / 5 : ℚ) = braceConfFormula ['{', '"', 'a', '"', ':', '1', '}'] :=
  ⟨by decide,
    claim_C6 ['x', '{', '"', 'a', '"', ':', '1', '}']
      ⟨['{', '"', 'a', '"', ':', '1', '}'], 1, 8, ExtractionMethod.brace_match,
        4 / 5⟩ (by decide)⟩

/-! Characterization of `_extract_first_valid` and confidence bounds. -/

theorem extractFirstValidGo_spec (loads : List Char → Option Json) (rep : Bool)
    (total : Nat) : ∀ (cands : List Candidate) (allR : List RepairLabel),
    (∃ allR2, extractFirstValidGo loads rep total cands allR =
        { success := false, candidates_found := total, repairs_applied := allR2,
          error := some ⟨msgFailedParse, .invalid_json, none⟩ } ∧
        ∀ c ∈ cands, attemptFails loads rep c)
    ∨ (∃ pre c post, cands = pre ++ c :: post ∧
        (∀ c' ∈ pre, attemptFails loads rep c') ∧
        successFor loads total c (extractFirstValidGo loads rep total cands allR)) := by
  intro cands
  induction cands with
  | nil =>
    intro allR
    left
    exact ⟨allR, rfl, by simp⟩
  | cons c rest ih =>
    intro allR
    rcases hl : loads c.raw with - | d
    · cases rep
      · have hstep : extractFirstValidGo loads false total (c :: rest) allR =
            extractFirstValidGo loads false total rest allR := by
          simp only [extractFirstValidGo, hl]
          rfl
        have hfail : attemptFails loads false c :=
          ⟨hl, fun h => absurd h (by simp)⟩
        rcases ih allR with ⟨allR2, heq, hall⟩ | ⟨pre, c', post, heq, hpre, hsucc⟩
        · left
          refine ⟨allR2, hstep.trans heq, ?_⟩
          intro x hx
          rcases List.mem_cons.mp hx with h | h
          · subst h; exact hfail
          · exact hall x h
        · right
          refine ⟨c :: pre, c', post, by rw [heq]; rfl, ?_, ?_⟩
          · intro x hx
            rcases List.mem_cons.mp hx with h | h
            · subst h; exact hfail
            · exact hpre x h
          · rw [hstep]
            exact hsucc
      · rcases hl2 : loads (repair_json c.raw).repaired with - | d
        · have hstep : extractFirstValidGo loads true total (c :: rest) allR =
              extractFirstValidGo loads true total rest
                (allR ++ (repair_json c.raw).repairs_applied) := by
            simp only [extractFirstValidGo, hl, hl2]
            rfl
          have hfail : attemptFails loads true c := ⟨hl, fun _ => hl2⟩
          rcases ih (allR ++ (repair_json c.raw).repairs_applied) with
            ⟨allR2, heq, hall⟩ | ⟨pre, c', post, heq, hpre, hsucc⟩
          · left
            refine ⟨allR2, hstep.trans heq, ?_⟩
            intro x hx
            rcases List.mem_cons.mp hx with h | h
            · subst h; exact hfail
            · exact hall x h
          · right
            refine ⟨c :: pre, c', post, by rw [heq]; rfl, ?_, ?_⟩
            · intro x hx
              rcases List.mem_cons.mp hx with h | h
              · subst h; exact hfail
              · exact hpre x h
            · rw [hstep]
              exact hsucc
        · right
          refine ⟨[], c, rest, rfl, by simp, ?_⟩
          have hstep : extractFirstValidGo loads true total (c :: rest) allR =
              { success := true, data := some (.single d),
                raw_json := some (repair_json c.raw).repaired,
                confidence :=
                  (let conf0 := if (repair_json c.raw).repairs_applied ≠ [] then
                      c.confidence * (9 / 10) else c.confidence
                   if (repair_json c.raw).is_truncated then conf0 * (8 / 10) else conf0),
                method := some c.method,
                repairs_applied := (repair_json c.raw).repairs_applied,
                candidates_found := total } := by
            simp only [extractFirstValidGo, hl, hl2]
            rfl
          rw [hstep]
          exact ⟨rfl, rfl, rfl, rfl, Or.inr ⟨hl, d, hl2, rfl, rfl, rfl, rfl⟩⟩
    · right
      refine ⟨[], c, rest, rfl, by simp, ?_⟩
      have hstep : extractFirstValidGo loads rep total (c :: rest) allR =
          { success := true, data := some (.single d), raw_json := some c.raw,
            confidence := c.confidence, method := some c.method,
            repairs_applied := [], candidates_found := total } := by
        simp only [extractFirstValidGo, hl]
      rw [hstep]
      exact ⟨rfl, rfl, rfl, rfl, Or.inl ⟨d, hl, rfl, rfl, rfl, rfl⟩⟩

/-- Confidence lies in the unit interval. -/
def confIn01 (c : Candidate) : Prop := 0 ≤ c.confidence ∧ c.confidence ≤ 1

theorem calcBraceConf_bounds (raw : List Char) :
    1 / 2 ≤ calcBraceConf raw ∧ calcBraceConf raw ≤ 9 / 10 := by
  unfold calcBraceConf
  constructor
  · exact le_min (by norm_num) (le_max_left _ _)
  · exact min_le_left _ _

theorem foldl_append_pred {α : Type} (step : List Candidate → α → List Candidate)
    (P : Candidate → Prop)
    (hstep : ∀ acc x c, (∀ c' ∈ acc, P c') → c ∈ step acc x → P c) :
    ∀ (ms : List α) (acc : List Candidate), (∀ c ∈ acc, P c) →
      ∀ c ∈ ms.foldl step acc, P c := by
  intro ms
  induction ms with
  | nil =>
    intro acc hacc c hc
    exact hacc c hc
  | cons m ms ih =>
    intro acc hacc c hc
    exact ih (step acc m) (fun c' hc' => hstep acc m c' hacc hc') c hc

theorem extract_direct_bounded (text : List Char) :
    ∀ c ∈ extract_direct text, confIn01 c := by
  intro c hc
  simp only [extract_direct] at hc
  split at hc
  · simp at hc
  · split at hc
    · rcases List.mem_singleton.mp hc with h
      subst h
      exact ⟨by norm_num, by norm_num⟩
    · simp at hc

theorem extract_from_markdown_fence_bounded (text : List Char) :
    ∀ c ∈ extract_from_markdown_fence text, confIn01 c := by
  unfold extract_from_markdown_fence
  intro c hc
  refine foldl_append_pred _ confIn01 ?_ _ _ ?_ c hc
  · intro acc x cc hacc hcc
    simp only [fenceAccumAny] at hcc
    split at hcc
    · split at hcc
      · exact hacc cc hcc
      · rcases List.mem_append.mp hcc with h | h
        · exact hacc cc h
        · rcases List.mem_singleton.mp h with h2
          subst h2
          exact ⟨by norm_num, by norm_num⟩
    · exact hacc cc hcc
  · refine foldl_append_pred _ confIn01 ?_ _ _ (by simp)
    intro acc x cc hacc hcc
    simp only [fenceAccumJson] at hcc
    split at hcc
    · rcases List.mem_append.mp hcc with h | h
      · exact hacc cc h
      · rcases List.mem_singleton.mp h with h2
        subst h2
        exact ⟨by norm_num, by norm_num⟩
    · exact hacc cc hcc

theorem ebmGo_bounded (text : List Char) :
    ∀ fuel i c, c ∈ ebmGo text fuel i → confIn01 c := by
  intro fuel i c hc
  have h1 := ebmGo_confidence text fuel i c hc
  have h2 := calcBraceConf_bounds c.raw
  constructor
  · rw [h1]; linarith [h2.1]
  · rw [h1]; linarith [h2.2]

theorem extract_heuristic_bounded (text : List Char) :
    ∀ c ∈ extract_heuristic text, confIn01 c := by
  unfold extract_heuristic
  have hstep : ∀ (ends : List Nat) c, c ∈ heurCandidates text ends → confIn01 c := by
    intro ends c hc
    unfold heurCandidates at hc
    refine foldl_append_pred _ confIn01 ?_ _ _ (by simp) c hc
    intro acc x cc hacc hcc
    simp only [heurAccum] at hcc
    split at hcc
    · rcases List.mem_append.mp hcc with h | h
      · exact hacc cc h
      · rcases List.mem_singleton.mp h with h2
        subst h2
        exact ⟨by norm_num, by norm_num⟩
    · exact hacc cc hcc
  intro c hc
  rcases List.mem_append.mp hc with h | h
  · rcases List.mem_append.mp h with h2 | h2
    · exact hstep _ c h2
    · exact hstep _ c h2
  · exact hstep _ c h

theorem dedupByRaw_subset : ∀ (l : List Candidate) (seen : List (List Char))
    (c : Candidate), c ∈ dedupByRaw l seen → c ∈ l := by
  intro l
  induction l with
  | nil =>
    intro seen c hc
    simp [dedupByRaw] at hc
  | cons x xs ih =>
    intro seen c hc
    simp only [dedupByRaw] at hc
    split at hc
    · exact List.mem_cons_of_mem x (ih _ c hc)
    · rcases List.mem_cons.mp hc with h | h
      · subst h; exact List.mem_cons_self _ _
      · exact List.mem_cons_of_mem x (ih _ c h)

theorem mem_insertDescBy {β : Type} [LinearOrder β] (key : Candidate → β)
    (x c : Candidate) : ∀ l, c ∈ insertDescBy key x l → c = x ∨ c ∈ l := by
  intro l
  induction l with
  | nil =>
    intro hc
    simp [insertDescBy] at hc
    exact Or.inl hc
  | cons y ys ih =>
    intro hc
    simp only [insertDescBy] at hc
    split at hc
    · rcases List.mem_cons.mp hc with h | h
      · exact Or.inl h
      · exact Or.inr h
    · rcases List.mem_cons.mp hc with h | h
      · subst h; exact Or.inr (List.mem_cons_self _ _)
      · rcases ih h with h2 | h2
        · exact Or.inl h2
        · exact Or.inr (List.mem_cons_of_mem y h2)

theorem mem_sortDescBy {β : Type} [LinearOrder β] (key : Candidate → β) :
    ∀ (l : List Candidate) (c : Candidate), c ∈ sortDescBy key l → c ∈ l := by
  intro l
  induction l with
  | nil =>
    intro c hc
    simpa [sortDescBy] using hc
  | cons x xs ih =>
    intro c hc
    simp only [sortDescBy] at hc
    rcases mem_insertDescBy key x c _ hc with h | h
    · subst h; exact List.mem_cons_self _ _
    · exact List.mem_cons_of_mem x (ih c h)

theorem extract_all_candidates_bounded (text : List Char) :
    ∀ c ∈ extract_all_candidates text, confIn01 c := by
  intro c hc
  unfold extract_all_candidates at hc
  have h1 := mem_sortDescBy (fun c => c.confidence) _ c hc
  have h2 := dedupByRaw_subset _ _ c h1
  rcases List.mem_append.mp h2 with h | h
  · rcases List.mem_append.mp h with h3 | h3
    · rcases List.mem_append.mp h3 with h4 | h4
      · exact extract_direct_bounded text c h4
      · exact extract_from_markdown_fence_bounded text c h4
    · exact ebmGo_bounded text _ _ c h3
  · exact extract_heuristic_bounded text c h

theorem rank_candidates_subset (cands : List Candidate) :
    ∀ c ∈ rank_candidates cands, c ∈ cands := by
  intro c hc
  unfold rank_candidates at hc
  split at hc
  · simp at hc
  · exact mem_sortDescBy rankingScore cands c hc

theorem sort_by_size_subset (cands : List Candidate) :
    ∀ c ∈ sort_by_size cands, c ∈ cands :=
  fun c hc => mem_sortDescBy (fun c => c.raw.length) cands c hc

theorem adjusted_conf_bounds {q : ℚ} (h0 : 0 ≤ q) (h1 : q ≤ 1)
    (reps : List RepairLabel) (tr : Bool) :
    0 ≤ (let conf0 := if reps ≠ [] then q * (9 / 10) else q
         if tr then conf0 * (8 / 10) else conf0)
    ∧ (let conf0 := if reps ≠ [] then q * (9 / 10) else q
       if tr then conf0 * (8 / 10) else conf0) ≤ 1 := by
  have hc0 : 0 ≤ (if reps ≠ [] then q * (9 / 10) else q) ∧
      (if reps ≠ [] then q * (9 / 10) else q) ≤ 1 := by
    split
    · constructor
      · positivity
      · nlinarith
    · exact ⟨h0, h1⟩
  dsimp only
  split
  · constructor
    · nlinarith [hc0.1]
    · nlinarith [hc0.1, hc0.2]
  · exact hc0

theorem extractAll_fold_bound (loads : List Char → Option Json) (rep : Bool) :
    ∀ (cands : List Candidate) (acc : AllAcc),
      (∀ c ∈ cands, confIn01 c) →
      0 ≤ acc.max_confidence → acc.max_confidence ≤ 1 →
      0 ≤ (cands.foldl (extractAllStep loads rep) acc).max_confidence ∧
        (cands.foldl (extractAllStep loads rep) acc).max_confidence ≤ 1 := by
  intro cands
  induction cands with
  | nil =>
    intro acc hb h0 h1
    exact ⟨h0, h1⟩
  | cons c rest ih =>
    intro acc hb h0 h1
    have hc : confIn01 c := hb c (List.mem_cons_self _ _)
    have hrest : ∀ x ∈ rest, confIn01 x :=
      fun x hx => hb x (List.mem_cons_of_mem c hx)
    simp only [List.foldl_cons]
    refine ih (extractAllStep loads rep acc c) hrest ?_ ?_
    · unfold extractAllStep
      rcases hld : loads c.raw with - | d
      · simp only [hld]
        split
        · exact h0
        · rcases hld2 : loads (repair_json c.raw).repaired with - | d2
          · simp only [hld2]
            exact h0
          · simp only [hld2, le_max_iff]
            exact Or.inl h0
      · simp only [hld, le_max_iff]
        exact Or.inl h0
    · unfold extractAllStep
      rcases hld : loads c.raw with - | d
      · simp only [hld]
        split
        · exact h1
        · rcases hld2 : loads (repair_json c.raw).repaired with - | d2
          · simp only [hld2]
            exact h1
          · simp only [hld2, max_le_iff]
            refine ⟨h1, ?_⟩
            split
            · nlinarith [hc.1, hc.2]
            · exact hc.2
      · simp only [hld, max_le_iff]
        exact ⟨h1, hc.2⟩

theorem extract_all_props (loads : List Char → Option Json)
    (cands : List Candidate) (rep : Bool) (hb : ∀ c ∈ cands, confIn01 c) :
    (0 ≤ (extract_all loads cands rep).confidence ∧
      (extract_all loads cands rep).confidence ≤ 1) ∧
    ((extract_all loads cands rep).success = false →
      (extract_all loads cands rep).data = none ∧
      (extract_all loads cands rep).error ≠ none) ∧
    ((extract_all loads cands rep).success = true →
      (extract_all loads cands rep).error = none) ∧
    (∀ e, (extract_all loads cands rep).error = some e →
      e.error_type = .invalid_json) := by
  have hbound := extractAll_fold_bound loads rep cands ⟨[], [], [], 0⟩ hb
    (by norm_num) (by norm_num)
  by_cases hres :
      (cands.foldl (extractAllStep loads rep) ⟨[], [], [], 0⟩).results.isEmpty = true
  · have hE : extract_all loads cands rep =
        { success := false, candidates_found := cands.length,
          repairs_applied :=
            (cands.foldl (extractAllStep loads rep) ⟨[], [], [], 0⟩).all_repairs,
          error := some ⟨msgFailedParse, .invalid_json, none⟩ } := by
      simp only [extract_all, hres, reduceIte]
    rw [hE]
    refine ⟨⟨le_refl 0, by norm_num⟩, fun _ => ⟨rfl, by simp⟩,
      fun h => by simp at h, fun e he => ?_⟩
    simp only [Option.some.injEq] at he
    rw [← he]
  · have hres' :
        (cands.foldl (extractAllStep loads rep) ⟨[], [], [], 0⟩).results.isEmpty
          = false := by
      simpa using hres
    have hE : extract_all loads cands rep =
        { success := true,
          data := some (.many
            (cands.foldl (extractAllStep loads rep) ⟨[], [], [], 0⟩).results),
          confidence :=
            (cands.foldl (extractAllStep loads rep) ⟨[], [], [], 0⟩).max_confidence,
          method :=
            (cands.foldl (extractAllStep loads rep) ⟨[], [], [], 0⟩).methods.head?,
          repairs_applied :=
            (cands.foldl (extractAllStep loads rep) ⟨[], [], [], 0⟩).all_repairs,
          candidates_found := cands.length } := by
      simp only [extract_all, hres', Bool.false_eq_true, reduceIte]
    rw [hE]
    exact ⟨⟨hbound.1, hbound.2⟩, fun h => by simp at h, fun _ => rfl,
      fun e he => by simp at he⟩

theorem extract_first_valid_props (loads : List Char → Option Json)
    (cands : List Candidate) (rep : Bool) (hb : ∀ c ∈ cands, confIn01 c) :
    (0 ≤ (extract_first_valid loads cands rep).confidence ∧
      (extract_first_valid loads cands rep).confidence ≤ 1) ∧
    ((extract_first_valid loads cands rep).success = false →
      (extract_first_valid loads cands rep).data = none ∧
      (extract_first_valid loads cands rep).error ≠ none) ∧
    ((extract_first_valid loads cands rep).success = true →
      (extract_first_valid loads cands rep).error = none) ∧
    (∀ e, (extract_first_valid loads cands rep).error = some e →
      e.error_type = .invalid_json) := by
  rcases extractFirstValidGo_spec loads rep (rank_candidates cands).length
      (rank_candidates cands) [] with
    ⟨allR2, heq, -⟩ | ⟨pre, c, post, heqlist, -, hsucc⟩
  · have heq' : extract_first_valid loads cands rep =
        { success := false, candidates_found := (rank_candidates cands).length,
          repairs_applied := allR2,
          error := some ⟨msgFailedParse, .invalid_json, none⟩ } := heq
    rw [heq']
    refine ⟨⟨by norm_num, by norm_num⟩, fun _ => ⟨rfl, by simp⟩, ?_, ?_⟩
    · intro h
      exact absurd h (by simp)
    · intro e he
      simp only [Option.some.injEq] at he
      rw [← he]
  · obtain ⟨hs, hm, hcf, herr, hdisj⟩ := hsucc
    have hcmem : c ∈ cands :=
      rank_candidates_subset cands c (heqlist ▸ List.mem_append_right pre
        (List.mem_cons_self _ _))
    have hcb : confIn01 c := hb c hcmem
    have herr' : (extract_first_valid loads cands rep).error = none := herr
    refine ⟨?_, ?_, fun _ => herr', ?_⟩
    · rcases hdisj with ⟨d, -, -, -, hconf, -⟩ | ⟨-, d, -, -, -, -, hconf⟩
      · rw [show (extract_first_valid loads cands rep).confidence = c.confidence
            from hconf]
        exact ⟨hcb.1, hcb.2⟩
      · rw [show (extract_first_valid loads cands rep).confidence = _ from hconf]
        exact adjusted_conf_bounds hcb.1 hcb.2 (repair_json c.raw).repairs_applied
          (repair_json c.raw).is_truncated
    · intro hfalse
      have : (extract_first_valid loads cands rep).success = true := hs
      rw [hfalse] at this
      exact absurd this (by simp)
    · intro e he
      rw [herr'] at he
      exact absurd he (by simp)

theorem meta_props (loads : List Char → Option Json) (text : List Char)
    (rep : Bool) (strat : Strategy) :
    (0 ≤ (extract_json_with_metadata loads text rep strat).confidence ∧
      (extract_json_with_metadata loads text rep strat).confidence ≤ 1) ∧
    ((extract_json_with_metadata loads text rep strat).success = false →
      (extract_json_with_metadata loads text rep strat).data = none ∧
      (extract_json_with_metadata loads text rep strat).error ≠ none) ∧
    ((extract_json_with_metadata loads text rep strat).success = true →
      (extract_json_with_metadata loads text rep strat).error = none) ∧
    (∀ e, (extract_json_with_metadata loads text rep strat).error = some e →
      e.error_type = .no_json_found ∨ e.error_type = .invalid_json) := by
  by_cases h1 : pyStrip text = []
  · have hE : extract_json_with_metadata loads text rep strat =
        { success := false, error := some ⟨msgEmptyInput, .no_json_found, none⟩ } := by
      simp only [extract_json_with_metadata, h1, reduceIte]
    rw [hE]
    refine ⟨⟨le_refl 0, by norm_num⟩, fun _ => ⟨rfl, by simp⟩,
      fun h => by simp at h, fun e he => ?_⟩
    simp only [Option.some.injEq] at he
    rw [← he]
    exact Or.inl rfl
  · by_cases h2 : extract_all_candidates text = []
    · have hE : extract_json_with_metadata loads text rep strat =
          { success := false, candidates_found := 0,
            error := some ⟨msgNoStructure, .no_json_found, none⟩ } := by
        simp only [extract_json_with_metadata, h1, h2, reduceIte]
      rw [hE]
      refine ⟨⟨le_refl 0, by norm_num⟩, fun _ => ⟨rfl, by simp⟩,
        fun h => by simp at h, fun e he => ?_⟩
      simp only [Option.some.injEq] at he
      rw [← he]
      exact Or.inl rfl
    · have hb := extract_all_candidates_bounded text
      cases strat
      · have hE : extract_json_with_metadata loads text rep .first =
            extract_first_valid loads (extract_all_candidates text) rep := by
          simp only [extract_json_with_metadata, h1, h2, reduceIte]
        rw [hE]
        obtain ⟨ha, hb2, hc2, hd2⟩ := extract_first_valid_props loads
          (extract_all_candidates text) rep hb
        exact ⟨ha, hb2, hc2, fun e he => Or.inr (hd2 e he)⟩
      · have hE : extract_json_with_metadata loads text rep .largest =
            extract_first_valid loads
              (sort_by_size (extract_all_candidates text)) rep := by
          simp only [extract_json_with_metadata, h1, h2, reduceIte]
        rw [hE]
        have hbs : ∀ c ∈ sort_by_size (extract_all_candidates text), confIn01 c :=
          fun c hc => hb c (sort_by_size_subset _ c hc)
        obtain ⟨ha, hb2, hc2, hd2⟩ := extract_first_valid_props loads
          (sort_by_size (extract_all_candidates text)) rep hbs
        exact ⟨ha, hb2, hc2, fun e he => Or.inr (hd2 e he)⟩
      · have hE : extract_json_with_metadata loads text rep .all =
            extract_all loads (extract_all_candidates text) rep := by
          simp only [extract_json_with_metadata, h1, h2, reduceIte]
        rw [hE]
        obtain ⟨ha, hb2, hc2, hd2⟩ := extract_all_props loads
          (extract_all_candidates text) rep hb
        exact ⟨ha, hb2, hc2, fun e he => Or.inr (hd2 e he)⟩

/-! C8 — result invariants and construction-time confidence validation. -/

/-- C8: every result of `extract_json_with_metadata` has confidence in
[0, 1]; failure implies absent data and a present error; success implies an
absent error; and constructing a Candidate or an ExtractResult with
confidence outside [0, 1] is rejected. -/
theorem claim_C8 (loads : List Char → Option Json) (text : List Char)
    (rep : Bool) (strat : Strategy) :
    (0 ≤ (extract_json_with_metadata loads text rep strat).confidence ∧
      (extract_json_with_metadata loads text rep strat).confidence ≤ 1) ∧
    ((extract_json_with_metadata loads text rep strat).success = false →
      (extract_json_with_metadata loads text rep strat).data = none ∧
      (extract_json_with_metadata loads text rep strat).error ≠ none) ∧
    ((extract_json_with_metadata loads text rep strat).success = true →
      (extract_json_with_metadata loads text rep strat).error = none) ∧
    (∀ (raw : List Char) (sp ep : Nat) (m : ExtractionMethod) (q : ℚ),
      ¬(0 ≤ q ∧ q ≤ 1) → mkCandidate raw sp ep m q = none) ∧
    (∀ (succ : Bool) (dat : Option PyData) (rj : Option (List Char)) (q : ℚ)
      (m : Option ExtractionMethod) (reps : List RepairLabel) (cf : Nat)
      (err : Option ExtractError),
      ¬(0 ≤ q ∧ q ≤ 1) → mkExtractResult succ dat rj q m reps cf err = none) := by
  obtain ⟨ha, hb, hc, -⟩ := meta_props loads text rep strat
  refine ⟨ha, hb, hc, ?_, ?_⟩
  · intro raw sp ep m q hq
    unfold mkCandidate
    rw [if_neg hq]
  · intro succ dat rj q m reps cf err hq
    unfold mkExtractResult
    rw [if_neg hq]

/-- C8 witness: on the empty input the result fails with an error present
and no data, and constructing a candidate at confidence 2 is rejected. -/
theorem claim_C8_witness :
    ((extract_json_with_metadata parseJson [] true .first).data = none ∧
      (extract_json_with_metadata parseJson [] true .first).error ≠ none) ∧
    mkCandidate [] 0 0 ExtractionMethod.direct_parse 2 = none :=
  ⟨(claim_C8 parseJson [] true .first).2.1 (by decide),
    (claim_C8 parseJson [] true .first).2.2.2.1 [] 0 0 ExtractionMethod.direct_parse 2
      (by norm_num)⟩

/-! C9 — only the two error kinds are ever produced. -/

/-- C9: every error produced by `extract_json_with_metadata` or
`extract_json` is classified `no_json_found` or `invalid_json`; the
reserved kinds `truncated_json`, `ambiguous_multiple` and `repair_failed`
are never produced. -/
theorem claim_C9 (loads : List Char → Option Json) (text : List Char)
    (rep : Bool) (strat : Strategy) :
    (∀ e, (extract_json_with_metadata loads text rep strat).error = some e →
      e.error_type = .no_json_found ∨ e.error_type = .invalid_json) ∧
    (∀ (ro : Bool) e, extract_json loads text rep strat ro = .error e →
      e.error_type = .no_json_found ∨ e.error_type = .invalid_json) := by
  obtain ⟨-, -, -, hme⟩ := meta_props loads text rep strat
  refine ⟨hme, ?_⟩
  intro ro e he
  unfold extract_json at he
  by_cases hs : (extract_json_with_metadata loads text rep strat).success = true
  · simp only [hs, reduceIte] at he
    exact absurd he (by simp)
  · have hs' : (extract_json_with_metadata loads text rep strat).success = false := by
      simpa using hs
    simp only [hs', Bool.false_eq_true, reduceIte] at he
    by_cases hro : ro = true
    · simp only [hro, reduceIte] at he
      rcases herr : (extract_json_with_metadata loads text rep strat).error with - | e'
      · rw [herr] at he
        simp only [Except.error.injEq] at he
        rw [← he]
        exact Or.inl rfl
      · rw [herr] at he
        simp only [Except.error.injEq] at he
        rw [← he]
        exact hme e' herr
    · have hro' : ro = false := by simpa using hro
      simp only [hro', Bool.false_eq_true, reduceIte] at he
      exact absurd he (by simp)

/-- C9 witness: on input with no JSON structure the metadata error is
`no_json_found`, as is the raised error. -/
theorem claim_C9_witness :
    ((extract_json_with_metadata parseJson ['h', 'i'] true .first).error.map
        (fun e => e.error_type) = some .no_json_found) ∧
    ((extract_json_with_metadata parseJson ['h', 'i'] true .first).error.all
      (fun e => decide (e.error_type = .no_json_found ∨
        e.error_type = .invalid_json)) = true) := by
  refine ⟨by decide, ?_⟩
  rcases herr : (extract_json_with_metadata parseJson ['h', 'i'] true .first).error
    with - | e
  · rfl
  · have := (claim_C9 parseJson ['h', 'i'] true .first).1 e herr
    simp [Option.all, this]

/-! C7 — per-candidate success semantics of first/largest. -/

/-- C7: under first/largest, whenever extraction succeeds there is a first
succeeding candidate in the ranked order, all earlier candidates having
failed both parses; if its raw text parsed strictly the result carries its
original confidence and zero repairs, and if only its repaired text parsed
the result's confidence is the candidate's multiplied by 0.9 when repairs
were applied (unchanged otherwise) and by a further 0.8 when truncation was
flagged, with the candidate's original method; both strategies route
through this same loop over the detected candidates (length-sorted first,
for largest). -/
theorem claim_C7 :
    (∀ (loads : List Char → Option Json) (cands : List Candidate) (rep : Bool),
      (extract_first_valid loads cands rep).success = true →
      ∃ pre c post, rank_candidates cands = pre ++ c :: post ∧
        (∀ c' ∈ pre, attemptFails loads rep c') ∧
        successFor loads (rank_candidates cands).length c
          (extract_first_valid loads cands rep)) ∧
    (∀ (loads : List Char → Option Json) (text : List Char) (rep : Bool),
      pyStrip text ≠ [] → extract_all_candidates text ≠ [] →
      extract_json_with_metadata loads text rep .first
          = extract_first_valid loads (extract_all_candidates text) rep ∧
      extract_json_with_metadata loads text rep .largest
          = extract_first_valid loads
              (sort_by_size (extract_all_candidates text)) rep) := by
  constructor
  · intro loads cands rep hsucc
    rcases extractFirstValidGo_spec loads rep (rank_candidates cands).length
        (rank_candidates cands) [] with
      ⟨allR2, heq, -⟩ | ⟨pre, c, post, heqlist, hpre, hs⟩
    · have heq' : extract_first_valid loads cands rep =
          { success := false, candidates_found := (rank_candidates cands).length,
            repairs_applied := allR2,
            error := some ⟨msgFailedParse, .invalid_json, none⟩ } := heq
      rw [heq'] at hsucc
      exact absurd hsucc (by simp)
    · exact ⟨pre, c, post, heqlist, hpre, hs⟩
  · intro loads text rep h1 h2
    constructor
    · unfold extract_json_with_metadata
      rw [if_neg h1, if_neg h2]
    · unfold extract_json_with_metadata
      rw [if_neg h1, if_neg h2]

/-- C7 witness: on `{"a":1,}` extraction succeeds (via the repair path of
the direct candidate), so the characterization applies. -/
theorem claim_C7_witness :
    (extract_first_valid parseJson
        (extract_all_candidates ['{', '"', 'a', '"', ':', '1', ',', '}'])
        true).success = true
    ∧ ∃ pre c post,
        rank_candidates (extract_all_candidates
          ['{', '"', 'a', '"', ':', '1', ',', '}']) = pre ++ c :: post ∧
        (∀ c' ∈ pre, attemptFails parseJson true c') ∧
        successFor parseJson
          (rank_candidates (extract_all_candidates
            ['{', '"', 'a', '"', ':', '1', ',', '}'])).length c
          (extract_first_valid parseJson
            (extract_all_candidates ['{', '"', 'a', '"', ':', '1', ',', '}'])
            true) :=
  ⟨by decide,
    claim_C7.1 parseJson
      (extract_all_candidates ['{', '"', 'a', '"', ':', '1', ',', '}']) true
      (by decide)⟩

/-! C5 — correctness of the balanced-bracket matcher. -/

theorem mbGo_strBody : ∀ {b : List Char}, StrBody b →
    ∀ (rest stack : List Char) (i : Nat),
      mbGo (b ++ rest) stack true i = mbGo rest stack true (i + b.length) := by
  intro b hb
  induction hb with
  | nil =>
    intro rest stack i
    simp
  | @chr c s hq hbs _ ih =>
    intro rest stack i
    show mbGo (c :: (s ++ rest)) stack true i = _
    rw [mbGo.eq_def]
    dsimp only
    rw [if_neg hbs, if_neg hq, if_pos rfl, ih rest stack (i + 1)]
    congr 1
    simp only [List.length_cons]
    omega
  | @esc s c _ ih =>
    intro rest stack i
    show mbGo ('\\' :: c :: (s ++ rest)) stack true i = _
    rw [mbGo.eq_def]
    dsimp only
    rw [if_pos rfl]
    show mbGo (s ++ rest) stack true (i + 2) = _
    rw [ih rest stack (i + 2)]
    congr 1
    simp only [List.length_cons]
    omega

theorem mbGo_bal : ∀ {b : List Char}, Bal b →
    ∀ (rest stack : List Char) (i : Nat), stack ≠ [] →
      mbGo (b ++ rest) stack false i = mbGo rest stack false (i + b.length) := by
  intro b hb
  induction hb with
  | nil =>
    intro rest stack i _
    simp
  | @chr c s h1 h2 h3 h4 h5 h6 _ ih =>
    intro rest stack i hst
    show mbGo (c :: (s ++ rest)) stack false i = _
    rw [mbGo.eq_def]
    dsimp only
    rw [if_neg h6, if_neg h5]
    rw [if_neg (by simp : ¬false = true)]
    rw [if_neg (by simp [h1, h2] : ¬(c = '{' || c = '[') = true)]
    rw [if_neg h3, if_neg h4, ih rest stack (i + 1) hst]
    congr 1
    simp only [List.length_cons]
    omega
  | @esc s c _ ih =>
    intro rest stack i hst
    show mbGo ('\\' :: c :: (s ++ rest)) stack false i = _
    rw [mbGo.eq_def]
    dsimp only
    rw [if_pos rfl]
    show mbGo (s ++ rest) stack false (i + 2) = _
    rw [ih rest stack (i + 2) hst]
    congr 1
    simp only [List.length_cons]
    omega
  | @str b2 s hsb _ ih =>
    intro rest stack i hst
    show mbGo ('"' :: (b2 ++ '"' :: s ++ rest)) stack false i = _
    rw [mbGo.eq_def]
    dsimp only
    rw [if_neg (by decide : ¬('"' : Char) = '\\'), if_pos rfl]
    have hassoc : b2 ++ '"' :: s ++ rest = b2 ++ ('"' :: (s ++ rest)) := by
      simp
    rw [hassoc]
    show mbGo (b2 ++ '"' :: (s ++ rest)) stack true (i + 1) = _
    rw [mbGo_strBody hsb ('"' :: (s ++ rest)) stack (i + 1)]
    show mbGo ('"' :: (s ++ rest)) stack true (i + 1 + b2.length) = _
    rw [mbGo.eq_def]
    dsimp only
    rw [if_neg (by decide : ¬('"' : Char) = '\\'), if_pos rfl]
    show mbGo (s ++ rest) stack false (i + 1 + b2.length + 1) = _
    rw [ih rest stack (i + 1 + b2.length + 1) hst]
    congr 1
    simp only [List.length_cons, List.length_append]
    omega
  | @brace b2 s _ _ ihb ihs =>
    intro rest stack i hst
    show mbGo ('{' :: (b2 ++ '}' :: s ++ rest)) stack false i = _
    rw [mbGo.eq_def]
    dsimp only
    rw [if_neg (by decide : ¬('{' : Char) = '\\'),
      if_neg (by decide : ¬('{' : Char) = '"')]
    rw [if_neg (by simp : ¬false = true)]
    rw [if_pos (by decide : (('{' : Char) = '{' || ('{' : Char) = '[') = true)]
    have hassoc : b2 ++ '}' :: s ++ rest = b2 ++ ('}' :: (s ++ rest)) := by
      simp
    rw [hassoc, ihb ('}' :: (s ++ rest)) ('{' :: stack) (i + 1) (by simp)]
    show mbGo ('}' :: (s ++ rest)) ('{' :: stack) false (i + 1 + b2.length) = _
    rw [mbGo.eq_def]
    dsimp only
    rw [if_neg (by decide : ¬('}' : Char) = '\\'),
      if_neg (by decide : ¬('}' : Char) = '"')]
    rw [if_neg (by simp : ¬false = true)]
    rw [if_neg (by decide : ¬(('}' : Char) = '{' || ('}' : Char) = '[') = true)]
    rw [if_pos rfl]
    show (if stack.isEmpty then some (i + 1 + b2.length)
          else mbGo (s ++ rest) stack false (i + 1 + b2.length + 1)) = _
    rw [if_neg (by simp [List.isEmpty_iff, hst] : ¬stack.isEmpty = true)]
    rw [ihs rest stack (i + 1 + b2.length + 1) hst]
    congr 1
    simp only [List.length_cons, List.length_append]
    omega
  | @bracket b2 s _ _ ihb ihs =>
    intro rest stack i hst
    show mbGo ('[' :: (b2 ++ ']' :: s ++ rest)) stack false i = _
    rw [mbGo.eq_def]
    dsimp only
    rw [if_neg (by decide : ¬('[' : Char) = '\\'),
      if_neg (by decide : ¬('[' : Char) = '"')]
    rw [if_neg (by simp : ¬false = true)]
    rw [if_pos (by decide : (('[' : Char) = '{' || ('[' : Char) = '[') = true)]
    have hassoc : b2 ++ ']' :: s ++ rest = b2 ++ (']' :: (s ++ rest)) := by
      simp
    rw [hassoc, ihb (']' :: (s ++ rest)) ('[' :: stack) (i + 1) (by simp)]
    show mbGo (']' :: (s ++ rest)) ('[' :: stack) false (i + 1 + b2.length) = _
    rw [mbGo.eq_def]
    dsimp only
    rw [if_neg (by decide : ¬(']' : Char) = '\\'),
      if_neg (by decide : ¬(']' : Char) = '"')]
    rw [if_neg (by simp : ¬false = true)]
    rw [if_neg (by decide : ¬((']' : Char) = '{' || (']' : Char) = '[') = true)]
    rw [if_neg (by decide : ¬(']' : Char) = '}'), if_pos rfl]
    show (if stack.isEmpty then some (i + 1 + b2.length)
          else mbGo (s ++ rest) stack false (i + 1 + b2.length + 1)) = _
    rw [if_neg (by simp [List.isEmpty_iff, hst] : ¬stack.isEmpty = true)]
    rw [ihs rest stack (i + 1 + b2.length + 1) hst]
    congr 1
    simp only [List.length_cons, List.length_append]
    omega

theorem matchBraces_drop (pre tail : List Char) :
    matchBraces (pre ++ tail) pre.length =
      (match tail with
       | [] => none
       | c :: rest =>
         if c = '{' || c = '[' then
           match mbGo rest [c] false (pre.length + 1) with
           | some e => some (pre.length, e)
           | none => none
         else none) := by
  unfold matchBraces
  rw [List.drop_left]

/-- C5: the balanced matcher is correct.  For properly paired (possibly
nested, possibly string-embedded, escape-respecting) content between an
opener and its corresponding closer, it returns the span from the opener to
the inclusive offset of that closer; it returns no match for a crossed
closer (an opener closed by the other type's closer) and no match for a
dangling opener whose remainder is balanced content with no closer. -/
theorem claim_C5 :
    (∀ (pre inner post : List Char) (op cl : Char),
      (op = '{' ∧ cl = '}') ∨ (op = '[' ∧ cl = ']') →
      Bal inner →
      matchBraces (pre ++ op :: (inner ++ cl :: post)) pre.length
        = some (pre.length, pre.length + inner.length + 1)) ∧
    (∀ (pre inner post : List Char) (op cl : Char),
      (op = '{' ∧ cl = ']') ∨ (op = '[' ∧ cl = '}') →
      Bal inner →
      matchBraces (pre ++ op :: (inner ++ cl :: post)) pre.length = none) ∧
    (∀ (pre inner : List Char) (op : Char), op = '{' ∨ op = '[' →
      Bal inner →
      matchBraces (pre ++ op :: inner) pre.length = none) := by
  refine ⟨?_, ?_, ?_⟩
  · intro pre inner post op cl hop hbal
    rcases hop with ⟨ho, hc⟩ | ⟨ho, hc⟩ <;> subst ho <;> subst hc
    · rw [matchBraces_drop pre ('{' :: (inner ++ '}' :: post))]
      dsimp only
      rw [if_pos (by decide)]
      rw [mbGo_bal hbal ('}' :: post) ['{'] (pre.length + 1) (by simp)]
      rw [mbGo.eq_def]
      dsimp only
      rw [if_neg (by decide : ¬('}' : Char) = '\\'),
        if_neg (by decide : ¬('}' : Char) = '"')]
      rw [if_neg (by simp : ¬false = true)]
      rw [if_neg (by decide : ¬(('}' : Char) = '{' || ('}' : Char) = '[') = true)]
      rw [if_pos rfl]
      show some (pre.length, pre.length + 1 + inner.length) = _
      congr 2
      omega
    · rw [matchBraces_drop pre ('[' :: (inner ++ ']' :: post))]
      dsimp only
      rw [if_pos (by decide)]
      rw [mbGo_bal hbal (']' :: post) ['['] (pre.length + 1) (by simp)]
      rw [mbGo.eq_def]
      dsimp only
      rw [if_neg (by decide : ¬(']' : Char) = '\\'),
        if_neg (by decide : ¬(']' : Char) = '"')]
      rw [if_neg (by simp : ¬false = true)]
      rw [if_neg (by decide : ¬((']' : Char) = '{' || (']' : Char) = '[') = true)]
      rw [if_neg (by decide : ¬(']' : Char) = '}')]
      rw [if_pos rfl]
      show some (pre.length, pre.length + 1 + inner.length) = _
      congr 2
      omega
  · intro pre inner post op cl hop hbal
    rcases hop with ⟨ho, hc⟩ | ⟨ho, hc⟩ <;> subst ho <;> subst hc
    · rw [matchBraces_drop pre ('{' :: (inner ++ ']' :: post))]
      dsimp only
      rw [if_pos (by decide)]
      rw [mbGo_bal hbal (']' :: post) ['{'] (pre.length + 1) (by simp)]
      rw [mbGo.eq_def]
      dsimp only
      rw [if_neg (by decide : ¬(']' : Char) = '\\'),
        if_neg (by decide : ¬(']' : Char) = '"')]
      rw [if_neg (by simp : ¬false = true)]
      rw [if_neg (by decide : ¬((']' : Char) = '{' || (']' : Char) = '[') = true)]
      rw [if_neg (by decide : ¬(']' : Char) = '}')]
      rw [if_pos rfl]
      rfl
    · rw [matchBraces_drop pre ('[' :: (inner ++ '}' :: post))]
      dsimp only
      rw [if_pos (by decide)]
      rw [mbGo_bal hbal ('}' :: post) ['['] (pre.length + 1) (by simp)]
      rw [mbGo.eq_def]
      dsimp only
      rw [if_neg (by decide : ¬('}' : Char) = '\\'),
        if_neg (by decide : ¬('}' : Char) = '"')]
      rw [if_neg (by simp : ¬false = true)]
      rw [if_neg (by decide : ¬(('}' : Char) = '{' || ('}' : Char) = '[') = true)]
      rw [if_pos rfl]
      rfl
  · intro pre inner op hop hbal
    rcases hop with ho | ho <;> subst ho
    · rw [matchBraces_drop pre ('{' :: inner)]
      dsimp only
      rw [if_pos (by decide)]
      have h1 : inner = inner ++ [] := by simp
      rw [h1, mbGo_bal hbal [] ['{'] (pre.length + 1) (by simp)]
      rfl
    · rw [matchBraces_drop pre ('[' :: inner)]
      dsimp only
      rw [if_pos (by decide)]
      have h1 : inner = inner ++ [] := by simp
      rw [h1, mbGo_bal hbal [] ['['] (pre.length + 1) (by simp)]
      rfl

/-- C5 witness: on `x{"a]":[1]}y` the matcher returns the span from the
opener at offset 1 to its closer at offset 10, with a bracket inside the
embedded string ignored; on the crossed `x{"a]":[1]]y` and the dangling
`x{"a]":[1]` it returns no match. -/
theorem claim_C5_witness :
    matchBraces ['x', '{', '"', 'a', ']', '"', ':', '[', '1', ']', '}', 'y'] 1
        = some (1, 10)
    ∧ matchBraces ['x', '{', '"', 'a', ']', '"', ':', '[', '1', ']', ']', 'y'] 1
        = none
    ∧ matchBraces ['x', '{', '"', 'a', ']', '"', ':', '[', '1', ']'] 1 = none := by
  have hstr : StrBody ['a', ']'] :=
    .chr (by decide) (by decide) (.chr (by decide) (by decide) .nil)
  have hone : Bal ['1'] :=
    .chr (by decide) (by decide) (by decide) (by decide) (by decide) (by decide) .nil
  have htail : Bal [':', '[', '1', ']'] :=
    .chr (by decide) (by decide) (by decide) (by decide) (by decide) (by decide)
      (.bracket hone .nil)
  have hinner : Bal ['"', 'a', ']', '"', ':', '[', '1', ']'] := .str hstr htail
  refine ⟨?_, ?_, ?_⟩
  · exact claim_C5.1 ['x'] ['"', 'a', ']', '"', ':', '[', '1', ']'] ['y'] '{' '}'
      (Or.inl ⟨rfl, rfl⟩) hinner
  · exact claim_C5.2.1 ['x'] ['"', 'a', ']', '"', ':', '[', '1', ']'] ['y'] '{' ']'
      (Or.inl ⟨rfl, rfl⟩) hinner
  · exact claim_C5.2.2 ['x'] ['"', 'a', ']', '"', ':', '[', '1', ']'] '{'
      (Or.inl rfl) hinner

/-! C1 — the largest strategy still applies the ranking function. -/

theorem pairwise_insertDescBy {β : Type} [LinearOrder β] (key : Candidate → β)
    (x : Candidate) : ∀ l, List.Pairwise (fun a b => key b ≤ key a) l →
      List.Pairwise (fun a b => key b ≤ key a) (insertDescBy key x l) := by
  intro l
  induction l with
  | nil =>
    intro _
    simp [insertDescBy]
  | cons y ys ih =>
    intro h
    rcases List.pairwise_cons.mp h with ⟨hy, hys⟩
    simp only [insertDescBy]
    by_cases hle : key y ≤ key x
    · rw [if_pos hle]
      refine List.pairwise_cons.mpr ⟨?_, h⟩
      intro z hz
      rcases List.mem_cons.mp hz with hz | hz
      · subst hz
        exact hle
      · exact le_trans (hy z hz) hle
    · rw [if_neg hle]
      refine List.pairwise_cons.mpr ⟨?_, ih hys⟩
      intro z hz
      rcases mem_insertDescBy key x z ys hz with hz | hz
      · subst hz
        exact le_of_lt (lt_of_not_le hle)
      · exact hy z hz

theorem pairwise_sortDescBy {β : Type} [LinearOrder β] (key : Candidate → β) :
    ∀ l, List.Pairwise (fun a b => key b ≤ key a) (sortDescBy key l) := by
  intro l
  induction l with
  | nil => simp [sortDescBy]
  | cons x xs ih =>
    simp only [sortDescBy]
    exact pairwise_insertDescBy key x _ ih

theorem filter_insertDescBy {β : Type} [LinearOrder β] (key : Candidate → β)
    (q : β) (x : Candidate) : ∀ l,
    (insertDescBy key x l).filter (fun c => decide (key c = q))
      = if key x = q then
          x :: l.filter (fun c => decide (key c = q))
        else l.filter (fun c => decide (key c = q)) := by
  intro l
  induction l with
  | nil =>
    simp only [insertDescBy]
    by_cases hq : key x = q
    · simp [List.filter_cons, hq]
    · simp [List.filter_cons, hq]
  | cons y ys ih =>
    simp only [insertDescBy]
    by_cases hle : key y ≤ key x
    · rw [if_pos hle]
      by_cases hq : key x = q
      · simp [List.filter_cons, hq]
      · simp [List.filter_cons, hq]
    · rw [if_neg hle]
      by_cases hyq : key y = q
      · have hxq : key x ≠ q := by
          intro hx
          exact hle (le_of_eq (hyq.trans hx.symm))
        simp [List.filter_cons, hyq, ih, hxq]
      · simp [List.filter_cons, hyq, ih]

theorem filter_sortDescBy {β : Type} [LinearOrder β] (key : Candidate → β)
    (q : β) : ∀ l, (sortDescBy key l).filter (fun c => decide (key c = q))
      = l.filter (fun c => decide (key c = q)) := by
  intro l
  induction l with
  | nil => simp [sortDescBy]
  | cons x xs ih =>
    simp only [sortDescBy]
    rw [filter_insertDescBy key q x (sortDescBy key xs), ih]
    by_cases hq : key x = q
    · simp [List.filter_cons, hq]
    · simp [List.filter_cons, hq]

theorem rank_candidates_eq_sort (cands : List Candidate) :
    rank_candidates cands = sortDescBy rankingScore cands := by
  unfold rank_candidates
  split
  · rename_i h
    rw [h]
    rfl
  · rfl

/-- The C1 counterexample text: a JSON-tagged fence holding `{"a":1}`
followed by a 26-character JSON object. -/
def c1text : List Char :=
  fence3 ++ ['j', 's', 'o', 'n', '\n'] ++ ['{', '"', 'a', '"', ':', '1', '}'] ++
    ['\n'] ++ fence3 ++ ['\n'] ++
    (['{', '"'] ++ List.replicate 14 'b' ++
      ['"', ':', ' ', '"', 'c', 'c', 'c', 'c', '"', '}'])

/-- C1 counterexample: on `c1text` under `strategy = largest`, the
raw-length-largest candidate is the 26-character object, yet the ranking
function reorders the attempted candidates (the ranked list differs from
the size-sorted list) and extraction returns the 7-character fenced object
with method `markdown_fence` — so candidates are not attempted in raw-text
length order and the ranking score is applied. -/
theorem claim_C1_counterexample :
    ((sort_by_size (extract_all_candidates c1text)).head?.map
        (fun c => c.raw.length) = some 26)
    ∧ rank_candidates (sort_by_size (extract_all_candidates c1text))
        ≠ sort_by_size (extract_all_candidates c1text)
    ∧ (extract_json_with_metadata parseJson c1text true .largest).raw_json
        = some ['{', '"', 'a', '"', ':', '1', '}']
    ∧ (extract_json_with_metadata parseJson c1text true .largest).method
        = some .markdown_fence := by
  refine ⟨by decide, by decide, by decide, by decide⟩

/-- C1 (amended): under `strategy = largest` the candidates are first
reordered by raw-text length descending (stable on ties), but the ranking
function is then applied to that list: the attempted order is sorted by
ranking score descending, and candidates of equal ranking score keep their
length-descending (stable) order. -/
theorem claim_C1 (cands : List Candidate) :
    List.Pairwise (fun a b => rankingScore b ≤ rankingScore a)
      (rank_candidates (sort_by_size cands))
    ∧ (∀ q : ℚ, (rank_candidates (sort_by_size cands)).filter
          (fun c => decide (rankingScore c = q))
        = (sort_by_size cands).filter (fun c => decide (rankingScore c = q)))
    ∧ List.Pairwise (fun a b => b.raw.length ≤ a.raw.length) (sort_by_size cands)
    ∧ (∀ n : Nat, (sort_by_size cands).filter (fun c => decide (c.raw.length = n))
        = cands.filter (fun c => decide (c.raw.length = n))) := by
  refine ⟨?_, ?_, ?_, ?_⟩
  · rw [rank_candidates_eq_sort]
    exact pairwise_sortDescBy rankingScore _
  · intro q
    rw [rank_candidates_eq_sort]
    exact filter_sortDescBy rankingScore q _
  · exact pairwise_sortDescBy (fun c => c.raw.length) cands
  · intro n
    exact filter_sortDescBy (fun c => c.raw.length) n cands

end LlmExtract
